import Mathlib

/-!
Verification of the `ByteRange` hierarchical interval tree
(`utils/byte_range.py` of uvbs/MachOTool).

The mutable Python object graph is embedded as a heap: a list of node
records indexed by allocation order.  Every method of `ByteRange` becomes a
function from a `State` to a `State` paired with a result or an error; as
in Python, an exception does *not* roll back mutations already performed,
so the state component is meaningful on the error path as well.

The collaborator classes `Range` and `Bytes` (imported by
`byte_range.py` but not part of the sources given) are modelled from the
spec: `Range` carries `start`/`stop` with `a < b` iff `a` lies entirely
before `b`, `a > b` symmetrically, `a in b` iff `a` is fully contained in
`b`, and `len(a) = a.stop - a.start`; `Bytes.range(start, stop)` is the
byte slice `[start, stop)`.
-/

namespace MachOTool

/-- Errors a `ByteRange` call can raise: the bare `ValueError()` of the
bounds check, the overlap `ValueError`, the spans-boundary `ValueError` of
`insert_subrange`, a failed `assert`, and `crash` for accesses that Python
would fault on (used only on paths that well-formedness rules out). -/
inductive Err where
  | bounds
  | overlap
  | boundary
  | assertFail
  | crash
deriving DecidableEq

/-- Opaque payload carried by a node: either a byte buffer (only
meaningful at the root) or an arbitrary caller annotation. -/
inductive Data where
  | bytes (buf : List Nat)
  | ann (k : Nat)
deriving DecidableEq

instance {ε α : Type} [DecidableEq ε] [DecidableEq α] : DecidableEq (Except ε α) := fun x y =>
  match x, y with
  | .error a, .error b =>
    if h : a = b then .isTrue (by rw [h]) else .isFalse (by intro hc; cases hc; exact h rfl)
  | .error _, .ok _ => .isFalse (by intro hc; cases hc)
  | .ok _, .error _ => .isFalse (by intro hc; cases hc)
  | .ok a, .ok b =>
    if h : a = b then .isTrue (by rw [h]) else .isFalse (by intro hc; cases hc; exact h rfl)

/-- Modelled from the spec: the interval primitive `Range` (class `Range`
of `utils/range.py`, not among the given sources) as a pair of
coordinates.  `ByteRange` inherits `start`/`stop` from it. -/
structure RangeV where
  start : Int
  stop : Int
deriving DecidableEq

/-- Modelled from the spec: `a < b` holds iff `a` lies entirely before `b`
with no overlap. -/
def rangeLt (a b : RangeV) : Prop := a.stop ≤ b.start

/-- Modelled from the spec: `a > b` holds iff `a` lies entirely after `b`
with no overlap. -/
def rangeGt (a b : RangeV) : Prop := a.start ≥ b.stop

/-- Modelled from the spec: `a in b` holds iff `a` is fully contained in
`b`. -/
def rangeIn (a b : RangeV) : Prop := b.start ≤ a.start ∧ a.stop ≤ b.stop

/-- Modelled from the spec: `len(a) = a.stop - a.start`. -/
def rangeLen (a : RangeV) : Int := a.stop - a.start

instance (a b : RangeV) : Decidable (rangeLt a b) := by unfold rangeLt; infer_instance

instance (a b : RangeV) : Decidable (rangeGt a b) := by unfold rangeGt; infer_instance

instance (a b : RangeV) : Decidable (rangeIn a b) := by unfold rangeIn; infer_instance

/-- Two spans overlap when neither `Range` ordering predicate relates
them; the contract makes `<`/`>` hold exactly for disjoint spans. -/
def overlaps (a b : RangeV) : Prop := ¬ rangeLt a b ∧ ¬ rangeGt a b

instance (a b : RangeV) : Decidable (overlaps a b) := by unfold overlaps; infer_instance

/-- Node identifier: position of the record in the allocation list. -/
abbrev NodeId := Nat

/-- Record of one `ByteRange` object: the inherited `start`/`stop`
coordinates and the fields set by `__init__`. -/
structure NodeRec where
  start : Int
  stop : Int
  data : Option Data
  parent : Option NodeId
  subranges : List NodeId
deriving DecidableEq

/-- Heap of all `ByteRange` objects allocated so far, indexed by
`NodeId`. -/
structure State where
  nodes : List NodeRec
deriving DecidableEq

/-- Dereference a node id. -/
def lookup (st : State) (n : NodeId) : Option NodeRec := st.nodes[n]?

/-- Coordinate view of a record (the `Range` part of the object). -/
def view (r : NodeRec) : RangeV := ⟨r.start, r.stop⟩

/-- Dereference a list of child ids to their coordinate views; `none`
models a dangling id (which Python would fault on). -/
def viewsOf (st : State) : List NodeId → Option (List RangeV)
  | [] => some []
  | n :: rest =>
    match lookup st n with
    | none => none
    | some r => (viewsOf st rest).map (view r :: ·)

/-- Allocate a fresh object, returning its id. -/
def alloc (st : State) (r : NodeRec) : State × NodeId :=
  (⟨st.nodes ++ [r]⟩, st.nodes.length)

/-- Overwrite the `subranges` field of node `n` in a record list. -/
def setSubsList : List NodeRec → Nat → List NodeId → List NodeRec
  | [], _, _ => []
  | r :: rest, 0, subs => { r with subranges := subs } :: rest
  | r :: rest, n + 1, subs => r :: setSubsList rest n subs

/-- Overwrite the `subranges` field of node `n` (the only field any
`ByteRange` method ever mutates on an existing object). -/
def updateSubs (st : State) (n : NodeId) (subs : List NodeId) : State :=
  ⟨setSubsList st.nodes n subs⟩

/-- Shallow embedding of `ByteRange.__init__(offset, length, data,
parent)`.  The `assert isinstance(parent, ByteRange) or parent is None`
is satisfied by typing; `assert offset == 0` fires for a parentless node
with non-zero offset.  Note that `__init__` forwards `(offset, length)`
directly to `Range.__init__(start, stop)`, so the stored `stop` is the
second argument itself, not `offset + length`. -/
def mkByteRange (st : State) (offset length : Int) (data : Option Data)
    (parent : Option NodeId) : State × Except Err NodeId :=
  if parent = none ∧ offset ≠ 0 then (st, .error .assertFail)
  else
    let (st1, fresh) := alloc st ⟨offset, length, data, parent, []⟩
    (st1, .ok fresh)

/-- Loop of the binary search in `add_subrange`: narrows `[left, right]`
while more than one slot apart, probing `subranges[mid].start`; an exact
`start` hit raises the overlap `ValueError`.  `(left + right) / 2` is the
Python 2 floor division.  Structurally fueled: the window shrinks every
iteration, so any fuel of at least `right - left` steps is enough and the
`crash` branch is unreachable from `addCore`. -/
def bsearch (starts : List Int) (t : Int) :
    Nat → Nat → Nat → Except Err (Nat × Nat)
  | 0, _, _ => .error .crash
  | fuel + 1, left, right =>
    if right - left > 1 then
      let mid := (left + right) / 2
      match starts[mid]? with
      | none => .error .crash
      | some ms =>
        if ms < t then bsearch starts t fuel mid right
        else if ms > t then bsearch starts t fuel left mid
        else .error .overlap
    else .ok (left, right)

/-- Placement logic of `add_subrange` over the current children views:
append after the last child, prepend before the first, or binary-search
an interior slot, raising the overlap `ValueError` when the new span is
not strictly between its neighbours.  Returns the insertion index. -/
def addCore (vs : List RangeV) (nv : RangeV) : Except Err Nat :=
  match vs.getLast? with
  | none => .ok vs.length
  | some lastv =>
    if rangeGt nv lastv then .ok vs.length
    else
      match vs.head? with
      | none => .error .crash
      | some headv =>
        if rangeLt nv headv then .ok 0
        else
          match bsearch (vs.map (·.start)) nv.start vs.length 0 (vs.length - 1) with
          | .error e => .error e
          | .ok (l, r) =>
            match vs[l]?, vs[r]? with
            | some lv, some rv =>
              if rangeLt lv nv ∧ rangeLt nv rv then .ok r else .error .overlap
            | _, _ => .error .crash

/-- Shallow embedding of `ByteRange.add_subrange(offset, length, data)`
called on node `n`: bounds check against `self.stop`, allocation of the
child (passing `offset + length` as the constructor's second argument),
then sorted insertion into `self.subranges`. -/
def add_subrange (st : State) (n : NodeId) (offset length : Int)
    (data : Option Data) : State × Except Err NodeId :=
  match lookup st n with
  | none => (st, .error .crash)
  | some rec =>
    if offset < 0 ∨ length < 0 ∨ offset + length > rec.stop then (st, .error .bounds)
    else
      match mkByteRange st offset (offset + length) data (some n) with
      | (st1, .error e) => (st1, .error e)
      | (st1, .ok newId) =>
        match viewsOf st1 rec.subranges with
        | none => (st1, .error .crash)
        | some vs =>
          match addCore vs ⟨offset, offset + length⟩ with
          | .error e => (st1, .error e)
          | .ok idx =>
            (updateSubs st1 n (rec.subranges.insertIdx idx newId), .ok newId)

/-- Scan phase of `insert_subrange`: walk the children in order, skipping
those entirely before the new span, stopping at the first one entirely
after it, collecting those fully contained, and raising the
spans-boundary `ValueError` on any partial overlap. -/
def scanBoundary (st : State) (tmp : RangeV) : List NodeId → Except Err (List NodeId)
  | [] => .ok []
  | n :: rest =>
    match lookup st n with
    | none => .error .crash
    | some r =>
      if rangeLt (view r) tmp then scanBoundary st tmp rest
      else if rangeGt (view r) tmp then .ok []
      else if rangeIn (view r) tmp then (scanBoundary st tmp rest).map (n :: ·)
      else .error .boundary

/-- Relocation loop of `insert_subrange`: re-add each removed child under
the new node at offset `ssr.start - offset` with length `len(ssr)` and
the same `data`, then overwrite the fresh child's `subranges` with the
original child's list (`new_ssr.subranges = ssr.subranges`). -/
def relinkLoop (st : State) (newSr : NodeId) (offset : Int) :
    List NodeId → State × Except Err Unit
  | [] => (st, .ok ())
  | ssr :: rest =>
    match lookup st ssr with
    | none => (st, .error .crash)
    | some ssrRec =>
      match add_subrange st newSr (ssrRec.start - offset) (rangeLen (view ssrRec))
          ssrRec.data with
      | (st1, .error e) => (st1, .error e)
      | (st1, .ok newSsr) =>
        relinkLoop (updateSubs st1 newSsr ssrRec.subranges) newSr offset rest

/-- Shallow embedding of `ByteRange.insert_subrange(offset, length,
data)` on node `n`: scan/validate, remove the fully covered children,
create the grouping node via `add_subrange`, then relocate the removed
children under it. -/
def insert_subrange (st : State) (n : NodeId) (offset length : Int)
    (data : Option Data) : State × Except Err NodeId :=
  match lookup st n with
  | none => (st, .error .crash)
  | some rec =>
    match scanBoundary st ⟨offset, offset + length⟩ rec.subranges with
    | .error e => (st, .error e)
    | .ok subsub =>
      let st1 := updateSubs st n (subsub.foldl List.erase rec.subranges)
      match add_subrange st1 n offset length data with
      | (st2, .error e) => (st2, .error e)
      | (st2, .ok newSr) =>
        match relinkLoop st2 newSr offset subsub with
        | (st3, .error e) => (st3, .error e)
        | (st3, .ok _) => (st3, .ok newSr)

/-- Parent-chain walk of `abs_start`: add each ancestor's `start`,
stopping when `parent` is `None`.  Fueled; `none` models a walk Python
could not complete (dangling reference or unbounded chain). -/
def absWalk (st : State) : Nat → Option NodeId → Int → Option Int
  | _, none, acc => some acc
  | 0, some _, _ => none
  | fuel + 1, some p, acc =>
    match lookup st p with
    | none => none
    | some r => absWalk st fuel r.parent (acc + r.start)

/-- Shallow embedding of `ByteRange.abs_start()`. -/
def absStartFuel (fuel : Nat) (st : State) (n : NodeId) : Option Int :=
  match lookup st n with
  | none => none
  | some r => absWalk st fuel r.parent r.start

/-- Shallow embedding of `ByteRange.abs_end()`:
`abs_start() + len(self)`. -/
def absEndFuel (fuel : Nat) (st : State) (n : NodeId) : Option Int :=
  match lookup st n with
  | none => none
  | some r => (absStartFuel fuel st n).map (· + rangeLen (view r))

/-- Shallow embedding of `ByteRange.abs_range(start, stop)`: default the
relative coordinates to `[0, len(self))`, then translate both by
`abs_start()`. -/
def absRange (fuel : Nat) (st : State) (n : NodeId)
    (start stop : Option Int) : Option (Int × Int) :=
  match lookup st n with
  | none => none
  | some r =>
    let s := start.getD 0
    let e := stop.getD (rangeLen (view r))
    (absStartFuel fuel st n).map (fun a => (s + a, e + a))

/-- Root-discovery walk of `bytes()`: follow `parent` until it is
`None`. -/
def rootWalk (st : State) : Nat → NodeId → Option NodeId
  | 0, _ => none
  | fuel + 1, n =>
    match lookup st n with
    | none => none
    | some r =>
      match r.parent with
      | none => some n
      | some p => rootWalk st fuel p

/-- Modelled from the spec: `Bytes.range(start, stop)` (class `Bytes` of
`utils/bytes.py`, not among the given sources) returns the byte slice
`[start, stop)` of the buffer. -/
def bytesRange (buf : List Nat) (start stop : Int) : List Nat :=
  ((buf.drop start.toNat).take (stop - start).toNat)

/-- Shallow embedding of `ByteRange.bytes(start, stop)`: walk to the
root; return `None` when the root carries no data; `assert` that the
root's data is a `Bytes`; otherwise slice the buffer at the absolute
coordinates from `abs_range`. -/
def bytesOp (fuel : Nat) (st : State) (n : NodeId)
    (start stop : Option Int) : Except Err (Option (List Nat)) :=
  match rootWalk st fuel n with
  | none => .error .crash
  | some r =>
    match lookup st r with
    | none => .error .crash
    | some rrec =>
      match rrec.data with
      | none => .ok none
      | some (.ann _) => .error .assertFail
      | some (.bytes buf) =>
        match absRange fuel st n start stop with
        | none => .error .crash
        | some (a, b) => .ok (some (bytesRange buf a b))

/-- Does any node on the parent path from `n` to the root carry a byte
buffer as its data?  (Spec-side notion used to state the `bytes()`
claim.) -/
def pathHasBuffer (st : State) : Nat → NodeId → Bool
  | 0, _ => false
  | fuel + 1, n =>
    match lookup st n with
    | none => false
    | some r =>
      (match r.data with
       | some (.bytes _) => true
       | _ => false) ||
      (match r.parent with
       | none => false
       | some p => pathHasBuffer st fuel p)

/-- Body of the `for sr in self.subranges` loop of `scan_gap`, read live
at index `i` exactly as Python's list iterator does (insertions performed
by the loop shift later elements and are seen by it).  Returns the trace
of `callback(gapStart, gapStop)` invocations in order.  Fueled because
the iterated list grows while being walked. -/
def scanGapLoop (cb : Int → Int → Option Data) (st : State) (n : NodeId) :
    Nat → Nat → Int → List (Int × Int) → State × Except Err (List (Int × Int))
  | _, 0, _, _ => (st, .error .crash)
  | i, fuel + 1, current, trace =>
    match lookup st n with
    | none => (st, .error .crash)
    | some rec =>
      match rec.subranges[i]? with
      | some srId =>
        match lookup st srId with
        | none => (st, .error .crash)
        | some sr =>
          let gap := sr.start - current
          if gap > 0 then
            match add_subrange st n current gap (cb current (current + gap)) with
            | (st1, .error e) => (st1, .error e)
            | (st1, .ok _) =>
              scanGapLoop cb st1 n (i + 1) fuel sr.stop
                (trace ++ [(current, current + gap)])
          else scanGapLoop cb st n (i + 1) fuel sr.stop trace
      | none =>
        let gap := rec.stop - (rec.start + current)
        if gap > 0 then
          match add_subrange st n current gap (cb current (current + gap)) with
          | (st1, .error e) => (st1, .error e)
          | (st1, .ok _) => (st1, .ok (trace ++ [(current, current + gap)]))
        else (st, .ok trace)

/-- Shallow embedding of `ByteRange.scan_gap(callback)`: does nothing
when there are no children; otherwise fills every gap in front of a child
and the trailing gap, creating one new leaf per gap with the callback's
return value as data.  Also returns the list of callback invocations in
order. -/
def scan_gap (cb : Int → Int → Option Data) (fuel : Nat) (st : State)
    (n : NodeId) : State × Except Err (List (Int × Int)) :=
  match lookup st n with
  | none => (st, .error .crash)
  | some rec =>
    if rec.subranges.length > 0 then scanGapLoop cb st n 0 fuel 0 []
    else (st, .ok [])

/-- Pure tree counterpart of a `ByteRange` node, for the methods that
read only `start`, `stop`, `data` and `subranges` (`does_partition`,
`iterate_leaves`, `iterate`). -/
inductive RTree where
  | mk (start stop : Int) (data : Option Data) (subs : List RTree)

/-- Accessor for the `start` coordinate. -/
def RTree.start : RTree → Int
  | .mk s _ _ _ => s

/-- Accessor for the `stop` coordinate. -/
def RTree.stop : RTree → Int
  | .mk _ e _ _ => e

/-- Accessor for the children list. -/
def RTree.subs : RTree → List RTree
  | .mk _ _ _ l => l

/-- Length of a node's span, `len(self) = stop - start`. -/
def RTree.len (t : RTree) : Int := t.stop - t.start

mutual
/-- Shallow embedding of `ByteRange.does_partition()`: `True` for a leaf,
otherwise the children must start at the running cursor (initially `0`),
each must itself partition, and the cursor must end at `len(self)`. -/
def does_partition (t : RTree) : Bool :=
  match t with
  | .mk s e _ subs =>
    match subs with
    | [] => true
    | l => dpLoop (e - s) 0 l

/-- Loop of `does_partition` over the children with the running
cursor. -/
def dpLoop (len cur : Int) : List RTree → Bool
  | [] => cur == len
  | sr :: rest =>
    if cur != sr.start then false
    else if !does_partition sr then false
    else dpLoop len sr.stop rest
end

mutual
/-- Shallow embedding of `ByteRange.iterate_leaves(callback, start,
level)`: at a leaf, one callback result (kept even when absent);
otherwise the concatenation over the children at `start + sr.start`,
`level + 1`. -/
def iterate_leaves {γ : Type} (cb : RTree → Int → Int → Nat → Option γ)
    (t : RTree) (start : Int) (level : Nat) : List (Option γ) :=
  match t with
  | .mk s e d subs =>
    match subs with
    | [] => [cb (.mk s e d subs) start (start + (e - s)) level]
    | l => ilList cb start level l

/-- Child loop of `iterate_leaves`. -/
def ilList {γ : Type} (cb : RTree → Int → Int → Nat → Option γ)
    (start : Int) (level : Nat) : List RTree → List (Option γ)
  | [] => []
  | sr :: rest =>
    iterate_leaves cb sr (start + sr.start) (level + 1) ++ ilList cb start level rest
end

mutual
/-- Shallow embedding of `ByteRange.iterate(callback, start, level)`:
callback at this node first, kept only when non-absent, then the
children's results in order. -/
def iterate {γ : Type} (cb : RTree → Int → Int → Nat → Option γ)
    (t : RTree) (start : Int) (level : Nat) : List γ :=
  match t with
  | .mk s e d subs =>
    (match cb (.mk s e d subs) start (start + (e - s)) level with
     | none => []
     | some r => [r]) ++ itList cb start level subs

/-- Child loop of `iterate`. -/
def itList {γ : Type} (cb : RTree → Int → Int → Nat → Option γ)
    (start : Int) (level : Nat) : List RTree → List γ
  | [] => []
  | sr :: rest =>
    iterate cb sr (start + sr.start) (level + 1) ++ itList cb start level rest
end

mutual
/-- Depth-first pre-order listing of a subtree: each node paired with the
`(start, stop, level)` arguments the traversals hand to the callback.
Spec-side notion used to state the traversal claims. -/
def preorder (t : RTree) (start : Int) (level : Nat) :
    List (RTree × Int × Int × Nat) :=
  match t with
  | .mk s e d subs =>
    (.mk s e d subs, start, start + (e - s), level) :: poList start level subs

/-- Child loop of `preorder`. -/
def poList (start : Int) (level : Nat) : List RTree → List (RTree × Int × Int × Nat)
  | [] => []
  | sr :: rest => preorder sr (start + sr.start) (level + 1) ++ poList start level rest
end

/-- Leaf test for a pre-order entry. -/
def isLeafEntry (q : RTree × Int × Int × Nat) : Bool := q.1.subs.isEmpty

/-- Application of a traversal callback to a pre-order entry. -/
def applyCb {γ : Type} (cb : RTree → Int → Int → Nat → Option γ)
    (q : RTree × Int × Int × Nat) : Option γ := cb q.1 q.2.1 q.2.2.1 q.2.2.2

mutual
/-- Spec-side tiling predicate, following the claim: the children (when
any) start at `0`, are contiguous (each starts at the previous child's
stop), reach exactly `len(self)`, and every child tiles its own span. -/
def tilesB (t : RTree) : Bool :=
  match t with
  | .mk s e _ subs =>
    subs.isEmpty ||
      ((match subs.head? with
        | none => false
        | some h => h.start == 0) &&
       adjB subs &&
       (match subs.getLast? with
        | none => false
        | some h => h.stop == e - s) &&
       allTilesB subs)

/-- Adjacent children are contiguous: each child's `stop` is the next
child's `start`. -/
def adjB : List RTree → Bool
  | [] => true
  | [_] => true
  | a :: b :: rest => (a.stop == b.start) && adjB (b :: rest)

/-- Every tree in the list tiles its own span. -/
def allTilesB : List RTree → Bool
  | [] => true
  | a :: rest => tilesB a && allTilesB rest
end

/-- Children list of a node, when the node exists. -/
def subsOf (st : State) (n : NodeId) : Option (List NodeId) :=
  (lookup st n).map (·.subranges)

/-- Ownership invariant, as the spec states it: every child recorded in a
node's `subranges` has its `parent` back-reference pointing at that
node. -/
def OwnerInv (st : State) : Prop :=
  ∀ i r, lookup st i = some r → ∀ c ∈ r.subranges,
    ∃ cr, lookup st c = some cr ∧ cr.parent = some i

/-- Executable check for `OwnerInv`. -/
def ownerInvB (st : State) : Bool :=
  (List.range st.nodes.length).all fun i =>
    match st.nodes[i]? with
    | none => true
    | some r =>
      r.subranges.all fun c =>
        match st.nodes[c]? with
        | none => false
        | some cr => cr.parent == some i

/-- Every stored `parent` reference points at an allocated node. -/
def ParentsValid (st : State) : Prop :=
  ∀ i r, lookup st i = some r → ∀ p, r.parent = some p → p < st.nodes.length

/-- Executable check for `ParentsValid`. -/
def parentsValidB (st : State) : Bool :=
  st.nodes.all fun r =>
    match r.parent with
    | none => true
    | some p => p < st.nodes.length

/-- Two heaps agree on the `start` and `parent` fields of every node of
the first (the fields `abs_start` reads); the second may hold additional
nodes. -/
def AgreeSP (st st2 : State) : Prop :=
  ∀ i r, lookup st i = some r →
    ∃ r2, lookup st2 i = some r2 ∧ r2.start = r.start ∧ r2.parent = r.parent

/-- Driver that performs a sequence of `add_subrange` calls on one node,
stopping at the first error; used to state the arbitrary-call-order
round-trip property. -/
def addAll (st : State) (n : NodeId) : List (Int × Int) → State × Except Err Unit
  | [] => (st, .ok ())
  | (o, l) :: rest =>
    match add_subrange st n o l none with
    | (st1, .error e) => (st1, .error e)
    | (st1, .ok _) => addAll st1 n rest

/-- Example heap: a root `ByteRange(0, 10)`. -/
def exRoot10 : State := (mkByteRange ⟨[]⟩ 0 10 none none).1

/-- Example heap: a root `ByteRange(0, 20)`. -/
def exRoot20 : State := (mkByteRange ⟨[]⟩ 0 20 none none).1

/-- Example heap: root `[0,10)` with one child `[5,10)` (node 1) created
by `add_subrange(5, 5)`. -/
def exC2 : State := (add_subrange exRoot10 0 5 5 none).1

/-- Example heap: root `[0,10)` with one child `[2,4)` (node 1). -/
def exC1 : State := (add_subrange exRoot10 0 2 2 none).1

/-- Example heap: root `[0,20)` with child `[2,5)` (node 1) which has a
grandchild `[0,2)` (node 2). -/
def exC3 : State :=
  (add_subrange (add_subrange exRoot20 0 2 3 none).1 1 0 2 none).1

/-- Example heap: root `[0,20)` with one child `[5,10)` (node 1). -/
def exC7 : State := (add_subrange exRoot20 0 5 5 none).1

/-- Example heap: root `[0,10)` without data whose child `[2,5)` (node 1)
carries a byte buffer as its `data`. -/
def exC8 : State := (add_subrange exRoot10 0 2 3 (some (.bytes [1, 2, 3]))).1

/-- Example heap: root `[0,10)` holding the buffer `[0,…,9]`, with one
child `[2,6)` (node 1). -/
def exC8root : State :=
  (add_subrange (mkByteRange ⟨[]⟩ 0 10 (some (.bytes [0, 1, 2, 3, 4, 5, 6, 7, 8, 9])) none).1
    0 2 4 none).1

/-- Example heap: root `[0,10)` with children `[0,1)`, `[2,3)`, `[4,5)`
(nodes 1, 2, 3). -/
def exC5 : State :=
  (add_subrange (add_subrange (add_subrange exRoot10 0 0 1 none).1 0 2 1 none).1
    0 4 1 none).1

/-- Example tree of the spec: root of length 10 with children `[0,4)` and
`[4,10)`. -/
def exTile : RTree := .mk 0 10 none [.mk 0 4 none [], .mk 4 10 none []]

/-- Example tree of the spec: root of length 10 with children `[0,4)` and
`[5,10)` (gap at 4–5). -/
def exGap : RTree := .mk 0 10 none [.mk 0 4 none [], .mk 5 10 none []]

/-- Views of the children of node `n`, when the node exists. -/
def childViews (st : State) (n : NodeId) : Option (List RangeV) :=
  match lookup st n with
  | none => none
  | some r => viewsOf st r.subranges

/-! Basic lemmas about the heap primitives. -/

theorem lookup_lt {st : State} {n : NodeId} {r : NodeRec}
    (h : lookup st n = some r) : n < st.nodes.length := by
  unfold lookup at h
  by_contra hn
  push_neg at hn
  rw [List.getElem?_eq_none hn] at h
  cases h

theorem lookup_append_new (st : State) (r : NodeRec) :
    lookup ⟨st.nodes ++ [r]⟩ st.nodes.length = some r := by
  unfold lookup
  simp

theorem lookup_append_old (st : State) (r : NodeRec) {i : NodeId}
    (h : i < st.nodes.length) : lookup ⟨st.nodes ++ [r]⟩ i = lookup st i := by
  unfold lookup
  rw [List.getElem?_append]
  rw [if_pos h]

theorem setSubsList_length (l : List NodeRec) :
    ∀ n subs, (setSubsList l n subs).length = l.length := by
  induction l with
  | nil => intro n subs; rfl
  | cons r rest ih =>
    intro n subs
    cases n with
    | zero => rfl
    | succ k => simp [setSubsList, ih]

theorem setSubsList_get_ne (l : List NodeRec) :
    ∀ n subs i, i ≠ n → (setSubsList l n subs)[i]? = l[i]? := by
  induction l with
  | nil => intro n subs i _; cases n <;> rfl
  | cons r rest ih =>
    intro n subs i hne
    cases n with
    | zero =>
      cases i with
      | zero => exact absurd rfl hne
      | succ j => simp [setSubsList]
    | succ k =>
      cases i with
      | zero => simp [setSubsList]
      | succ j =>
        simp only [setSubsList, List.getElem?_cons_succ]
        exact ih k subs j (by omega)

theorem setSubsList_get_self (l : List NodeRec) :
    ∀ n subs r, l[n]? = some r →
      (setSubsList l n subs)[n]? = some { r with subranges := subs } := by
  induction l with
  | nil => intro n subs r h; rw [List.getElem?_nil] at h; cases h
  | cons x rest ih =>
    intro n subs r h
    cases n with
    | zero =>
      rw [List.getElem?_cons_zero] at h
      cases h
      simp [setSubsList]
    | succ k =>
      rw [List.getElem?_cons_succ] at h
      simpa [setSubsList] using ih k subs r h

theorem updateSubs_length (st : State) (n : NodeId) (subs : List NodeId) :
    (updateSubs st n subs).nodes.length = st.nodes.length :=
  setSubsList_length st.nodes n subs

theorem lookup_updateSubs_ne {st : State} {n i : NodeId} (subs : List NodeId)
    (h : i ≠ n) : lookup (updateSubs st n subs) i = lookup st i :=
  setSubsList_get_ne st.nodes n subs i h

theorem lookup_updateSubs_self {st : State} {n : NodeId} {r : NodeRec}
    (subs : List NodeId) (h : lookup st n = some r) :
    lookup (updateSubs st n subs) n = some { r with subranges := subs } :=
  setSubsList_get_self st.nodes n subs r h

/-- Success characterization of `add_subrange`: the bounds check passed,
the child was allocated at the fresh id, and the insertion index came
from `addCore` on the previous children's views. -/
theorem add_subrange_ok_elim {st : State} {n : NodeId} {o l : Int}
    {d : Option Data} {st2 : State} {m : NodeId}
    (h : add_subrange st n o l d = (st2, .ok m)) :
    ∃ rec vs idx,
      lookup st n = some rec ∧
      0 ≤ o ∧ 0 ≤ l ∧ o + l ≤ rec.stop ∧
      viewsOf ⟨st.nodes ++ [⟨o, o + l, d, some n, []⟩]⟩ rec.subranges = some vs ∧
      addCore vs ⟨o, o + l⟩ = .ok idx ∧
      m = st.nodes.length ∧
      st2 = updateSubs ⟨st.nodes ++ [⟨o, o + l, d, some n, []⟩]⟩ n
        (rec.subranges.insertIdx idx m) := by
  unfold add_subrange at h
  cases hl : lookup st n with
  | none => rw [hl] at h; simp at h
  | some rec =>
    rw [hl] at h
    dsimp only at h
    by_cases hb : o < 0 ∨ l < 0 ∨ o + l > rec.stop
    · rw [if_pos hb] at h; simp at h
    · rw [if_neg hb] at h
      push_neg at hb
      simp only [mkByteRange, alloc] at h
      rw [if_neg (by simp)] at h
      dsimp only at h
      cases hv : viewsOf ⟨st.nodes ++ [⟨o, o + l, d, some n, []⟩]⟩ rec.subranges with
      | none => rw [hv] at h; simp at h
      | some vs =>
        rw [hv] at h
        dsimp only at h
        cases hc : addCore vs ⟨o, o + l⟩ with
        | error e => rw [hc] at h; simp at h
        | ok idx =>
          rw [hc] at h
          dsimp only at h
          simp only [Prod.mk.injEq, Except.ok.injEq] at h
          obtain ⟨hst, hm⟩ := h
          exact ⟨rec, vs, idx, rfl, by omega, by omega, by omega, hv, hc, hm.symm, by
            rw [← hm, ← hst]⟩

/-- Main theorem for claim C2 (code bug): on the node `[5,10)` of length
5, `add_subrange(7, 2)` succeeds although `7 + 2 > 5`, because the bounds
check compares `offset + length` against `self.stop` (= 10) instead of
the node's length `self.stop - self.start` (= 5). -/
theorem c2_bounds_check_uses_stop_not_length :
  (add_subrange exC2 1 7 2 none).2 = .ok 2 ∧
  (lookup exC2 1).map (fun r => rangeLen (view r)) = some 5 ∧
  ¬ (7 + 2 : Int) ≤ 5 := by decide

/-- Counterexample for claim C4: the constructor call
`ByteRange(2, 5, None, parent)` passes its precondition checks (the
parent is a node), yet the resulting node has `stop = 5`, not
`offset + length = 7`: `__init__` forwards its second argument directly
as the `Range` `stop`. -/
theorem c4_counterexample :
  (mkByteRange exC2 2 5 none (some 0)).2 = .ok 2 ∧
  lookup (mkByteRange exC2 2 5 none (some 0)).1 2 = some ⟨2, 5, none, some 0, []⟩ ∧
  (5 : Int) ≠ 2 + 5 := by decide

/-- Amended claim C4: the constructor stores `start = offset` and `stop =
second argument`; consequently a node created by `add_subrange(offset,
length)` — which passes `offset + length` as that argument — satisfies
`start = offset` and `stop = offset + length`. -/
theorem c4_amended_constructor_fields :
  (∀ st offset length data parent st1 m,
     mkByteRange st offset length data parent = (st1, .ok m) →
     lookup st1 m = some ⟨offset, length, data, parent, []⟩) ∧
  (∀ st n offset length data st1 m,
     add_subrange st n offset length data = (st1, .ok m) →
     ∃ r, lookup st1 m = some r ∧ r.start = offset ∧ r.stop = offset + length) := by
  constructor
  · intro st offset length data parent st1 m h
    unfold mkByteRange at h
    split at h
    · simp at h
    · simp only [alloc, Prod.mk.injEq, Except.ok.injEq] at h
      obtain ⟨hst, hm⟩ := h
      rw [← hst, ← hm]
      exact lookup_append_new st _
  · intro st n offset length data st1 m h
    obtain ⟨rec, vs, idx, hl, _, _, _, _, _, hm, hst⟩ := add_subrange_ok_elim h
    refine ⟨⟨offset, offset + length, data, some n, []⟩, ?_, rfl, rfl⟩
    rw [hst, hm]
    have hlt : n < st.nodes.length := lookup_lt hl
    have hne : st.nodes.length ≠ n := Nat.ne_of_gt hlt
    rw [lookup_updateSubs_ne _ hne]
    exact lookup_append_new st _

/-- Counterexample for claim C1: on a root `[0,10)` with one child
`[2,4)`, `insert_subrange(0, 11)` fails with the bounds error of the
inner `add_subrange`, yet the child has already been removed: the
subranges list after the failed call is empty, not what it was before. -/
theorem c1_counterexample :
  (insert_subrange exC1 0 0 11 none).2 = .error .bounds ∧
  subsOf (insert_subrange exC1 0 0 11 none).1 0 = some [] ∧
  subsOf exC1 0 = some [1] := by decide

/-- Counterexample for claim C5: on a root with children `[0,1)`,
`[2,3)`, `[4,5)`, the in-bounds span `[2,2)` is disjoint from every
child under the `Range` contract, yet `add_subrange(2, 0)` fails with the
overlap error, because the binary search probes the child start `2` and
treats the exact hit as an overlap. -/
theorem c5_counterexample :
  subsOf exC5 0 = some [1, 2, 3] ∧
  viewsOf exC5 [1, 2, 3] = some [⟨0, 1⟩, ⟨2, 3⟩, ⟨4, 5⟩] ∧
  (∀ v ∈ [(⟨0, 1⟩ : RangeV), ⟨2, 3⟩, ⟨4, 5⟩], ¬ overlaps ⟨2, 2⟩ v) ∧
  (0 : Int) ≤ 2 ∧ (0 : Int) ≤ 0 ∧ (2 + 0 : Int) ≤ 10 ∧
  (add_subrange exC5 0 2 0 none).2 = .error .overlap := by decide

/-- Counterexample for claim C3: after `insert_subrange(2, 3)` groups the
child `[2,5)` (node 1, with grandchild node 2) under a new node, the
re-created child (node 4) owns node 2 in its `subranges`, but node 2's
`parent` still points at the detached node 1: the ownership invariant
does not survive the regroup step. -/
theorem c3_counterexample :
  (insert_subrange exC3 0 2 3 none).2 = .ok 3 ∧
  subsOf (insert_subrange exC3 0 2 3 none).1 4 = some [2] ∧
  (lookup (insert_subrange exC3 0 2 3 none).1 2).map (·.parent) = some (some 1) ∧
  (4 : NodeId) ≠ 1 ∧
  ownerInvB (insert_subrange exC3 0 2 3 none).1 = false := by decide

/-- Counterexample for claim C8: on a tree whose root has no data but
whose child carries a byte buffer, `bytes()` on the child returns the
absent result even though a node on the path to the root (the child
itself) has attached buffer data — only the root's data is ever
consulted. -/
theorem c8_counterexample :
  pathHasBuffer exC8 10 1 = true ∧
  bytesOp 10 exC8 1 none none = .ok none := by decide

/-! Equivalence of `does_partition` with the tiling specification. -/

mutual

theorem dp_eq_tiles : ∀ t : RTree, does_partition t = tilesB t
  | .mk s e d subs => by
    cases subs with
    | nil => rfl
    | cons a rest =>
      have h := dpLoop_shape (a :: rest) (e - s) 0
      obtain ⟨g, hgl⟩ : ∃ g, (a :: rest).getLast? = some g := by
        cases hx : (a :: rest).getLast? with
        | none => rw [List.getLast?_eq_none_iff] at hx; cases hx
        | some g => exact ⟨g, rfl⟩
      simp only [does_partition] at *
      rw [h]
      simp only [tilesB, List.isEmpty_cons, Bool.false_or, List.head?_cons, hgl]

theorem dpLoop_shape : ∀ (subs : List RTree) (len cur : Int),
    dpLoop len cur subs =
      ((match subs.head? with
        | none => true
        | some a => a.start == cur) &&
       adjB subs &&
       (match subs.getLast? with
        | none => cur == len
        | some b => b.stop == len) &&
       allTilesB subs)
  | [], len, cur => by simp [dpLoop, adjB, allTilesB]
  | a :: rest, len, cur => by
    rw [dpLoop]
    have hdp := dp_eq_tiles a
    by_cases hc : cur = a.start
    · subst hc
      simp only [bne_self_eq_false, Bool.false_eq_true, if_false, List.head?_cons,
        beq_self_eq_true, Bool.true_and, hdp]
      cases htl : tilesB a with
      | false =>
        simp only [Bool.not_false, if_true, allTilesB, htl, Bool.false_and, Bool.and_false]
      | true =>
        simp only [Bool.not_true, Bool.false_eq_true, if_false, allTilesB, htl, Bool.true_and]
        cases rest with
        | nil =>
          simp [dpLoop, adjB, allTilesB]
        | cons b rest2 =>
          rw [dpLoop_shape (b :: rest2) len a.stop]
          obtain ⟨g, hgl⟩ : ∃ g, (b :: rest2).getLast? = some g := by
            cases hx : (b :: rest2).getLast? with
            | none => rw [List.getLast?_eq_none_iff] at hx; cases hx
            | some g => exact ⟨g, rfl⟩
          simp only [List.head?_cons, adjB, List.getLast?_cons_cons, hgl]
          cases hbs : a.stop == b.start with
          | false =>
            have hbs2 : (b.start == a.stop) = false := by
              simp only [beq_eq_false_iff_ne] at *
              omega
            simp [hbs2]
          | true =>
            have hbs2 : (b.start == a.stop) = true := by
              simp only [beq_iff_eq] at *
              omega
            simp [hbs2, Bool.and_assoc]
    · have hcb : (cur != a.start) = true := by simp [bne_iff_ne]; omega
      have hcb2 : (a.start == cur) = false := by simp [beq_eq_false_iff_ne]; omega
      simp [hcb, hcb2]

end

/-- Main theorem for claim C6 (confirmed): `does_partition()` is `true`
exactly when the children tile `[0, len)` — first child at 0, each child
starting at the previous child's stop, last child reaching `len`, every
child recursively tiling its own span (vacuously true for a leaf) — and
the spec's two examples evaluate as stated. -/
theorem c6_does_partition_iff_tiling :
  (∀ t : RTree, does_partition t = true ↔ tilesB t = true) ∧
  does_partition exTile = true ∧
  does_partition exGap = false := by
  refine ⟨fun t => by rw [dp_eq_tiles], by decide, by decide⟩

/-! Traversals against the pre-order specification. -/

mutual

theorem iterate_leaves_eq {γ : Type} (cb : RTree → Int → Int → Nat → Option γ) :
    ∀ (t : RTree) (a : Int) (l : Nat),
      iterate_leaves cb t a l = ((preorder t a l).filter isLeafEntry).map (applyCb cb)
  | .mk s e d [], a, l => by
    simp [iterate_leaves, preorder, poList, isLeafEntry, applyCb, RTree.subs]
  | .mk s e d (x :: xs), a, l => by
    rw [iterate_leaves, preorder]
    rw [List.filter_cons_of_neg (by
      intro h
      simp [isLeafEntry, RTree.subs] at h)]
    exact ilList_eq cb a l (x :: xs)
    exact fun h => List.cons_ne_nil x xs h

theorem ilList_eq {γ : Type} (cb : RTree → Int → Int → Nat → Option γ) :
    ∀ (a : Int) (l : Nat) (subs : List RTree),
      ilList cb a l subs = ((poList a l subs).filter isLeafEntry).map (applyCb cb)
  | a, l, [] => rfl
  | a, l, x :: xs => by
    rw [ilList, poList, List.filter_append, List.map_append,
      iterate_leaves_eq cb x (a + x.start) (l + 1), ilList_eq cb a l xs]

end

mutual

theorem iterate_eq {γ : Type} (cb : RTree → Int → Int → Nat → Option γ) :
    ∀ (t : RTree) (a : Int) (l : Nat),
      iterate cb t a l = (preorder t a l).filterMap (applyCb cb)
  | .mk s e d subs, a, l => by
    rw [iterate, preorder, List.filterMap_cons]
    have h := itList_eq cb a l subs
    cases hcb : cb (.mk s e d subs) a (a + (e - s)) l with
    | none => simpa [applyCb, hcb] using h
    | some r => simpa [applyCb, hcb] using h

theorem itList_eq {γ : Type} (cb : RTree → Int → Int → Nat → Option γ) :
    ∀ (a : Int) (l : Nat) (subs : List RTree),
      itList cb a l subs = (poList a l subs).filterMap (applyCb cb)
  | a, l, [] => rfl
  | a, l, x :: xs => by
    rw [itList, poList, List.filterMap_append,
      iterate_eq cb x (a + x.start) (l + 1), itList_eq cb a l xs]

end

/-- Main theorem for claim C9 (confirmed): `iterate_leaves` returns one
entry per leaf of the subtree in left-to-right order — the leaf entries
of the depth-first pre-order listing — keeping absent callback results;
`iterate` visits every node in pre-order and keeps only the non-absent
callback results; both hand the callback the node, the running start and
stop offsets, and the nesting level, with the starting node at the given
level (0 at the top call). -/
theorem c9_traversals_follow_preorder :
  (∀ (γ : Type) (cb : RTree → Int → Int → Nat → Option γ) (t : RTree) (a : Int) (l : Nat),
     iterate_leaves cb t a l = ((preorder t a l).filter isLeafEntry).map (applyCb cb)) ∧
  (∀ (γ : Type) (cb : RTree → Int → Int → Nat → Option γ) (t : RTree) (a : Int) (l : Nat),
     iterate cb t a l = (preorder t a l).filterMap (applyCb cb)) :=
  ⟨fun _ cb t a l => iterate_leaves_eq cb t a l,
   fun _ cb t a l => iterate_eq cb t a l⟩

/-- Main theorem for claim C7 (confirmed): on a node of length 20 with
the single child `[5,10)`, `scan_gap` invokes the callback on `(0, 5)`
and then on `(10, 20)`, in that order, and inserts exactly the two leaves
`[0,5)` and `[10,20)`, each carrying the callback's return value for its
gap as data; on a node with no children it changes nothing and invokes no
callback. -/
theorem c7_scan_gap_fills_gaps :
  (∀ cb : Int → Int → Option Data,
     scan_gap cb 10 exC7 0 =
       (⟨[⟨0, 20, none, none, [2, 1, 3]⟩,
          ⟨5, 10, none, some 0, []⟩,
          ⟨0, 5, cb 0 5, some 0, []⟩,
          ⟨10, 20, cb 10 20, some 0, []⟩]⟩, .ok [(0, 5), (10, 20)])) ∧
  (∀ (cb : Int → Int → Option Data) (fuel : Nat) (st : State) (n : NodeId) (rec : NodeRec),
     lookup st n = some rec → rec.subranges = [] →
     scan_gap cb fuel st n = (st, .ok [])) := by
  constructor
  · intro cb
    rfl
  · intro cb fuel st n rec h1 h2
    unfold scan_gap
    rw [h1]
    dsimp only
    rw [h2]
    rfl

/-- Witness for the hypotheses of `c7_scan_gap_fills_gaps`: the childless
root `[0,10)` is left untouched by `scan_gap`. -/
theorem c7_scan_gap_fills_gaps_witness :
  scan_gap (fun _ _ => none) 3 exRoot10 0 = (exRoot10, .ok []) :=
  c7_scan_gap_fills_gaps.2 (fun _ _ => none) 3 exRoot10 0 ⟨0, 10, none, none, []⟩ rfl rfl

/-- Amended claim C8: `bytes()` returns the absent result exactly when
the root's `data` is absent — data attached to non-root nodes on the path
is never consulted — and otherwise returns the slice of the root buffer
at `[abs_start, abs_start + len)`, with explicit node-relative
coordinates translated by `abs_start()`. -/
theorem c8_amended_bytes_root_only :
  ∀ (fuel : Nat) (st : State) (n rt : NodeId) (rrec nrec : NodeRec) (a : Int),
    rootWalk st fuel n = some rt →
    lookup st rt = some rrec →
    lookup st n = some nrec →
    absStartFuel fuel st n = some a →
    ((rrec.data = none → ∀ s t, bytesOp fuel st n s t = .ok none) ∧
     (∀ s t, bytesOp fuel st n s t = .ok none → rrec.data = none) ∧
     (∀ buf, rrec.data = some (.bytes buf) →
        bytesOp fuel st n none none =
          .ok (some (bytesRange buf a (a + rangeLen (view nrec)))) ∧
        ∀ u v, bytesOp fuel st n (some u) (some v) =
          .ok (some (bytesRange buf (u + a) (v + a))))) := by
  intro fuel st n rt rrec nrec a hwalk hrt hn habs
  have habsr : ∀ s t : Option Int,
      absRange fuel st n s t = some (s.getD 0 + a, t.getD (rangeLen (view nrec)) + a) := by
    intro s t
    unfold absRange
    rw [hn, habs]
    rfl
  have hbytes : ∀ s t : Option Int,
      bytesOp fuel st n s t =
        match rrec.data with
        | none => .ok none
        | some (.ann _) => .error .assertFail
        | some (.bytes buf) =>
          .ok (some (bytesRange buf (s.getD 0 + a) (t.getD (rangeLen (view nrec)) + a))) := by
    intro s t
    unfold bytesOp
    rw [hwalk]
    dsimp only
    rw [hrt]
    dsimp only
    rw [habsr s t]
  refine ⟨?_, ?_, ?_⟩
  · intro hd s t
    rw [hbytes s t, hd]
  · intro s t h
    rw [hbytes s t] at h
    cases hd : rrec.data with
    | none => rfl
    | some d0 =>
      rw [hd] at h
      cases d0 <;> simp at h
  · intro buf hd
    constructor
    · rw [hbytes none none, hd]
      have : (0 : Int) + a = a := by omega
      rw [show (none : Option Int).getD 0 + a = a from by simp]
      rw [show (none : Option Int).getD (rangeLen (view nrec)) + a
            = a + rangeLen (view nrec) from by simp [Int.add_comm]]
    · intro u v
      rw [hbytes (some u) (some v), hd]
      rfl

/-- Witness for the hypotheses of `c8_amended_bytes_root_only`: on the
root `[0,10)` carrying the buffer `0,…,9` with child `[2,6)`, `bytes()`
on the child yields the slice `[2,6)` of the buffer. -/
theorem c8_amended_bytes_root_only_witness :
  bytesOp 10 exC8root 1 none none =
    .ok (some (bytesRange [0, 1, 2, 3, 4, 5, 6, 7, 8, 9] 2
      (2 + rangeLen (view ⟨2, 6, none, some 0, []⟩)))) :=
  ((c8_amended_bytes_root_only 10 exC8root 1 0
      ⟨0, 10, some (.bytes [0, 1, 2, 3, 4, 5, 6, 7, 8, 9]), none, [1]⟩
      ⟨2, 6, none, some 0, []⟩ 2 rfl rfl rfl rfl).2.2
    [0, 1, 2, 3, 4, 5, 6, 7, 8, 9] rfl).1

/-! Lemmas about `viewsOf` and about sorted-disjoint view lists. -/

theorem viewsOf_length {st : State} : ∀ {ids : List NodeId} {vs : List RangeV},
    viewsOf st ids = some vs → vs.length = ids.length := by
  intro ids
  induction ids with
  | nil => intro vs h; cases h; rfl
  | cons i rest ih =>
    intro vs h
    unfold viewsOf at h
    cases hi : lookup st i with
    | none => rw [hi] at h; cases h
    | some r =>
      rw [hi] at h
      cases hv : viewsOf st rest with
      | none => rw [hv] at h; cases h
      | some vs2 =>
        rw [hv] at h
        cases h
        simp [ih hv]

theorem viewsOf_valid {st : State} : ∀ {ids : List NodeId} {vs : List RangeV},
    viewsOf st ids = some vs → ∀ i ∈ ids, i < st.nodes.length := by
  intro ids
  induction ids with
  | nil => intro vs _ i hi; cases hi
  | cons j rest ih =>
    intro vs h i hi
    unfold viewsOf at h
    cases hj : lookup st j with
    | none => rw [hj] at h; cases h
    | some r =>
      rw [hj] at h
      cases hv : viewsOf st rest with
      | none => rw [hv] at h; cases h
      | some vs2 =>
        rcases List.mem_cons.mp hi with rfl | hmem
        · exact lookup_lt hj
        · exact ih hv i hmem

theorem viewsOf_append_frame {st : State} (r : NodeRec) :
    ∀ {ids : List NodeId}, (∀ i ∈ ids, i < st.nodes.length) →
      viewsOf ⟨st.nodes ++ [r]⟩ ids = viewsOf st ids := by
  intro ids
  induction ids with
  | nil => intro _; rfl
  | cons j rest ih =>
    intro hvalid
    unfold viewsOf
    rw [lookup_append_old st r (hvalid j (List.mem_cons_self j rest))]
    rw [ih (fun i hi => hvalid i (List.mem_cons_of_mem j hi))]

theorem setSubsList_get_none (l : List NodeRec) :
    ∀ n subs, l[n]? = none → (setSubsList l n subs)[n]? = none := by
  induction l with
  | nil => intro n subs _; cases n <;> rfl
  | cons r rest ih =>
    intro n subs h
    cases n with
    | zero => simp at h
    | succ k =>
      rw [List.getElem?_cons_succ] at h
      simpa [setSubsList] using ih k subs h

theorem lookup_updateSubs_view (st : State) (n : NodeId) (subs : List NodeId)
    (i : NodeId) :
    (lookup (updateSubs st n subs) i).map view = (lookup st i).map view := by
  by_cases hin : i = n
  · subst hin
    cases hi : lookup st i with
    | none =>
      have h2 : lookup (updateSubs st i subs) i = none :=
        setSubsList_get_none st.nodes i subs hi
      rw [h2]
    | some rr =>
      rw [lookup_updateSubs_self subs hi]
      rfl
  · rw [lookup_updateSubs_ne subs hin]

theorem viewsOf_updateSubs (st : State) (n : NodeId) (subs : List NodeId) :
    ∀ (ids : List NodeId), viewsOf (updateSubs st n subs) ids = viewsOf st ids := by
  intro ids
  induction ids with
  | nil => rfl
  | cons j rest ih =>
    unfold viewsOf
    have h := lookup_updateSubs_view st n subs j
    cases hj : lookup st j with
    | none =>
      rw [hj] at h
      cases hx : lookup (updateSubs st n subs) j with
      | none => rfl
      | some rr => rw [hx] at h; cases h
    | some r =>
      rw [hj] at h
      cases hx : lookup (updateSubs st n subs) j with
      | none => rw [hx] at h; cases h
      | some rr =>
        rw [hx] at h
        have h2 : view rr = view r := by simpa using h
        dsimp only
        rw [ih, h2]

theorem viewsOf_insertIdx {st : State} {nr : NodeRec} {newId : NodeId}
    (hnew : lookup st newId = some nr) :
    ∀ (ids : List NodeId) (vs : List RangeV) (idx : Nat),
      viewsOf st ids = some vs → idx ≤ ids.length →
      viewsOf st (ids.insertIdx idx newId) = some (vs.insertIdx idx (view nr)) := by
  intro ids
  induction ids with
  | nil =>
    intro vs idx h hidx
    cases h
    have hz : idx = 0 := Nat.le_zero.mp hidx
    subst hz
    rw [List.insertIdx_zero, List.insertIdx_zero]
    unfold viewsOf
    rw [hnew]
    rfl
  | cons j rest ih =>
    intro vs idx h hidx
    cases idx with
    | zero =>
      rw [List.insertIdx_zero, List.insertIdx_zero]
      unfold viewsOf
      rw [hnew, h]
      rfl
    | succ k =>
      rw [List.insertIdx_succ_cons]
      unfold viewsOf at h ⊢
      cases hj : lookup st j with
      | none => rw [hj] at h; cases h
      | some r =>
        rw [hj] at h
        dsimp only at h ⊢
        cases hv : viewsOf st rest with
        | none => rw [hv] at h; cases h
        | some vs2 =>
          rw [hv] at h
          have h2 : view r :: vs2 = vs := by simpa using h
          rw [← h2, List.insertIdx_succ_cons]
          rw [ih vs2 k hv (by simpa using hidx)]
          rfl

theorem pairwise_getLast {R : RangeV → RangeV → Prop} {vs : List RangeV}
    {lv : RangeV} (hp : List.Pairwise R vs) (hlast : vs.getLast? = some lv) :
    ∀ v ∈ vs, v = lv ∨ R v lv := by
  obtain ⟨ys, rfl⟩ := List.getLast?_eq_some_iff.mp hlast
  intro v hv
  rcases List.mem_append.mp hv with hy | hl
  · exact Or.inr ((List.pairwise_append.mp hp).2.2 v hy lv (by simp))
  · simp at hl
    exact Or.inl hl

theorem pairwise_head {R : RangeV → RangeV → Prop} {vs : List RangeV}
    {hv0 : RangeV} (hp : List.Pairwise R vs) (hhead : vs.head? = some hv0) :
    ∀ v ∈ vs, v = hv0 ∨ R hv0 v := by
  cases vs with
  | nil => cases hhead
  | cons a tl =>
    rw [List.head?_cons, Option.some.injEq] at hhead
    subst hhead
    intro v hv
    rcases List.mem_cons.mp hv with rfl | hmem
    · exact Or.inl rfl
    · exact Or.inr ((List.pairwise_cons.mp hp).1 v hmem)

theorem pairwise_insertIdx {R : RangeV → RangeV → Prop} :
    ∀ (vs : List RangeV) (idx : Nat) (nv : RangeV), idx ≤ vs.length →
      List.Pairwise R vs →
      (∀ (j : Nat) (hj : j < vs.length), j < idx → R (vs.get ⟨j, hj⟩) nv) →
      (∀ (j : Nat) (hj : j < vs.length), idx ≤ j → R nv (vs.get ⟨j, hj⟩)) →
      List.Pairwise R (vs.insertIdx idx nv)
  | vs, 0, nv, hle, hp, hb, ha => by
    rw [List.insertIdx_zero]
    refine List.pairwise_cons.mpr ⟨fun v hv => ?_, hp⟩
    obtain ⟨⟨j, hj⟩, rfl⟩ := List.mem_iff_get.mp hv
    exact ha j hj (Nat.zero_le j)
  | [], idx + 1, nv, hle, hp, hb, ha => by simp at hle
  | v :: rest, idx + 1, nv, hle, hp, hb, ha => by
    rw [List.insertIdx_succ_cons]
    have hle2 : idx ≤ rest.length := by simpa using hle
    refine List.pairwise_cons.mpr ⟨fun w hw => ?_, ?_⟩
    · rcases (List.mem_insertIdx hle2).mp hw with rfl | hmem
      · exact hb 0 (by simp) (by omega)
      · exact (List.pairwise_cons.mp hp).1 w hmem
    · refine pairwise_insertIdx rest idx nv hle2 (List.pairwise_cons.mp hp).2
        (fun j hj hjidx => ?_) (fun j hj hjidx => ?_)
      · exact hb (j + 1) (by simpa using Nat.succ_lt_succ hj) (by omega)
      · exact ha (j + 1) (by simpa using Nat.succ_lt_succ hj) (by omega)

theorem insertIdx_perm (nv : RangeV) :
    ∀ (vs : List RangeV) (idx : Nat), idx ≤ vs.length →
      (vs.insertIdx idx nv).Perm (nv :: vs)
  | vs, 0, _ => by rw [List.insertIdx_zero]
  | [], idx + 1, hle => by simp at hle
  | v :: rest, idx + 1, hle => by
    rw [List.insertIdx_succ_cons]
    exact ((insertIdx_perm nv rest idx (by simpa using hle)).cons v).trans
      (List.Perm.swap nv v rest)

theorem starts_strict {vs : List RangeV} (hs : List.Pairwise rangeLt vs)
    (hpos : ∀ v ∈ vs, 0 < rangeLen v) :
    List.Pairwise (fun a b : Int => a < b) (vs.map (·.start)) := by
  rw [List.pairwise_map]
  refine hs.imp_of_mem ?_
  intro a b ha hb hab
  have hpa := hpos a ha
  unfold rangeLt at hab
  unfold rangeLen at hpa
  omega

/-! Lemmas about the binary-search loop. -/

theorem bsearch_ok_shape (starts : List Int) (t : Int) :
    ∀ (f l r lf rf : Nat), l < r → bsearch starts t f l r = .ok (lf, rf) →
      l ≤ lf ∧ rf = lf + 1 ∧ rf ≤ r := by
  intro f
  induction f with
  | zero => intro l r lf rf hlr h; simp [bsearch] at h
  | succ f ih =>
    intro l r lf rf hlr h
    simp only [bsearch] at h
    by_cases hgt : r - l > 1
    · rw [if_pos hgt] at h
      cases hms : starts[(l + r) / 2]? with
      | none => rw [hms] at h; simp at h
      | some ms =>
        rw [hms] at h
        dsimp only at h
        by_cases h1 : ms < t
        · rw [if_pos h1] at h
          have hr := ih ((l + r) / 2) r lf rf (by omega) h
          exact ⟨by omega, hr.2.1, hr.2.2⟩
        · rw [if_neg h1] at h
          by_cases h2 : ms > t
          · rw [if_pos h2] at h
            have hr := ih l ((l + r) / 2) lf rf (by omega) h
            exact ⟨hr.1, hr.2.1, by omega⟩
          · rw [if_neg h2] at h; simp at h
    · rw [if_neg hgt] at h
      simp only [Except.ok.injEq, Prod.mk.injEq] at h
      obtain ⟨rfl, rfl⟩ := h
      exact ⟨Nat.le_refl _, by omega, by omega⟩

theorem bsearch_error_cases (starts : List Int) (t : Int) :
    ∀ (f l r : Nat) (e : Err), bsearch starts t f l r = .error e →
      e = .overlap ∨ e = .crash := by
  intro f
  induction f with
  | zero =>
    intro l r e h
    simp only [bsearch, Except.error.injEq] at h
    exact Or.inr h.symm
  | succ f ih =>
    intro l r e h
    simp only [bsearch] at h
    by_cases hgt : r - l > 1
    · rw [if_pos hgt] at h
      cases hms : starts[(l + r) / 2]? with
      | none =>
        rw [hms] at h
        simp only [Except.error.injEq] at h
        exact Or.inr h.symm
      | some ms =>
        rw [hms] at h
        dsimp only at h
        by_cases h1 : ms < t
        · rw [if_pos h1] at h; exact ih _ _ e h
        · rw [if_neg h1] at h
          by_cases h2 : ms > t
          · rw [if_pos h2] at h; exact ih _ _ e h
          · rw [if_neg h2] at h
            simp only [Except.error.injEq] at h
            exact Or.inl h.symm
    · rw [if_neg hgt] at h; simp at h

theorem bsearch_no_crash (starts : List Int) (t : Int) :
    ∀ (f l r : Nat), r - l < f → r < starts.length →
      bsearch starts t f l r ≠ .error .crash := by
  intro f
  induction f with
  | zero => intro l r h1 _; omega
  | succ f ih =>
    intro l r h1 h2
    simp only [bsearch]
    by_cases hgt : r - l > 1
    · rw [if_pos hgt]
      have hmidlen : (l + r) / 2 < starts.length := by omega
      rw [List.getElem?_eq_getElem hmidlen]
      dsimp only
      by_cases hc1 : starts[(l + r) / 2] < t
      · rw [if_pos hc1]
        exact ih ((l + r) / 2) r (by omega) h2
      · rw [if_neg hc1]
        by_cases hc2 : starts[(l + r) / 2] > t
        · rw [if_pos hc2]
          exact ih l ((l + r) / 2) (by omega) (by omega)
        · rw [if_neg hc2]; simp
    · rw [if_neg hgt]; simp

theorem bsearch_spec (starts : List Int) (t : Int) :
    ∀ (f l r : Nat) (sl sr : Int), r - l ≤ f → l < r → r < starts.length →
      starts[l]? = some sl → starts[r]? = some sr → sl < t → t < sr →
      (bsearch starts t f l r = .error .overlap ∧ t ∈ starts) ∨
      (∃ (lf : Nat) (a b : Int), bsearch starts t f l r = .ok (lf, lf + 1) ∧
        l ≤ lf ∧ lf + 1 ≤ r ∧ starts[lf]? = some a ∧ starts[lf + 1]? = some b ∧
        a < t ∧ t < b) := by
  intro f
  induction f with
  | zero => intro l r sl sr hf hlr _ _ _ _ _; omega
  | succ f ih =>
    intro l r sl sr hf hlr hrlen hsl hsr hslt hsrt
    by_cases hgt : r - l > 1
    · have hmidlen : (l + r) / 2 < starts.length := by omega
      have hms : starts[(l + r) / 2]? = some starts[(l + r) / 2] :=
        List.getElem?_eq_getElem hmidlen
      rcases lt_trichotomy starts[(l + r) / 2] t with h1 | h1 | h1
      · have hstep : bsearch starts t (f + 1) l r = bsearch starts t f ((l + r) / 2) r := by
          simp only [bsearch]
          rw [if_pos hgt, hms]
          dsimp only
          rw [if_pos h1]
        rcases ih ((l + r) / 2) r starts[(l + r) / 2] sr (by omega) (by omega) hrlen
            hms hsr h1 hsrt with ⟨he, hm⟩ | ⟨lf, a, b, heq, hl1, hl2, ha, hb, hat, htb⟩
        · exact Or.inl ⟨by rw [hstep]; exact he, hm⟩
        · exact Or.inr ⟨lf, a, b, by rw [hstep]; exact heq, by omega, hl2, ha, hb, hat, htb⟩
      · refine Or.inl ⟨?_, h1 ▸ List.getElem_mem hmidlen⟩
        simp only [bsearch]
        rw [if_pos hgt, hms]
        dsimp only
        rw [if_neg (by omega), if_neg (by omega)]
      · have hstep : bsearch starts t (f + 1) l r = bsearch starts t f l ((l + r) / 2) := by
          simp only [bsearch]
          rw [if_pos hgt, hms]
          dsimp only
          rw [if_neg (by omega), if_pos h1]
        rcases ih l ((l + r) / 2) sl starts[(l + r) / 2] (by omega) (by omega) (by omega)
            hsl hms hslt h1 with ⟨he, hm⟩ | ⟨lf, a, b, heq, hl1, hl2, ha, hb, hat, htb⟩
        · exact Or.inl ⟨by rw [hstep]; exact he, hm⟩
        · exact Or.inr ⟨lf, a, b, by rw [hstep]; exact heq, hl1, by omega, ha, hb, hat, htb⟩
    · have hr1 : r = l + 1 := by omega
      subst hr1
      refine Or.inr ⟨l, sl, sr, ?_, Nat.le_refl _, Nat.le_refl _, hsl, hsr, hslt, hsrt⟩
      simp only [bsearch]
      rw [if_neg hgt]

/-! Specification of `addCore` on sorted, disjoint, positive-length
children views. -/

theorem addCore_spec (vs : List RangeV) (nv : RangeV)
    (hs : List.Pairwise rangeLt vs)
    (hpos : ∀ v ∈ vs, 0 < rangeLen v)
    (hnpos : 0 < rangeLen nv) :
    ((∃ v ∈ vs, overlaps nv v) → addCore vs nv = .error .overlap) ∧
    ((∀ v ∈ vs, ¬ overlaps nv v) →
      ∃ idx, addCore vs nv = .ok idx ∧ idx ≤ vs.length ∧
        List.Pairwise rangeLt (vs.insertIdx idx nv)) := by
  cases hlast : vs.getLast? with
  | none =>
    have hnil : vs = [] := List.getLast?_eq_none_iff.mp hlast
    subst hnil
    constructor
    · rintro ⟨v, hv, _⟩; cases hv
    · intro _
      exact ⟨0, rfl, by simp, by simp⟩
  | some lastv =>
    have hlastmem : lastv ∈ vs := List.mem_of_getLast?_eq_some hlast
    by_cases hgtl : rangeGt nv lastv
    · have hac : addCore vs nv = .ok vs.length := by
        simp only [addCore]
        rw [hlast]
        dsimp only
        rw [if_pos hgtl]
      have hall : ∀ v ∈ vs, rangeLt v nv := by
        intro v hv
        rcases pairwise_getLast hs hlast v hv with rfl | hlt
        · exact hgtl
        · have hp := hpos v hv
          have hpl := hpos lastv hlastmem
          unfold rangeLt rangeGt rangeLen at *
          omega
      constructor
      · rintro ⟨v, hv, hov⟩
        exact absurd (hall v hv) hov.2
      · intro _
        refine ⟨vs.length, hac, Nat.le_refl _, ?_⟩
        rw [List.insertIdx_length_self, List.pairwise_append]
        refine ⟨hs, List.pairwise_singleton _ _, fun a ha b hb => ?_⟩
        simp only [List.mem_singleton] at hb
        subst hb
        exact hall a ha
    · cases hhead : vs.head? with
      | none =>
        have hnil : vs = [] := List.head?_eq_none_iff.mp hhead
        subst hnil
        cases hlast
      | some headv =>
        have hheadv : ∀ v ∈ vs, v = headv ∨ rangeLt headv v := pairwise_head hs hhead
        have hheadmem : headv ∈ vs := by
          cases vs with
          | nil => cases hhead
          | cons a tl =>
            rw [List.head?_cons, Option.some.injEq] at hhead
            subst hhead
            exact List.mem_cons_self _ _
        by_cases hlth : rangeLt nv headv
        · have hac : addCore vs nv = .ok 0 := by
            simp only [addCore]
            rw [hlast]
            dsimp only
            rw [if_neg hgtl, hhead]
            dsimp only
            rw [if_pos hlth]
          have hall : ∀ v ∈ vs, rangeLt nv v := by
            intro v hv
            rcases hheadv v hv with rfl | hlt
            · exact hlth
            · have hph := hpos headv hheadmem
              unfold rangeLt rangeLen at *
              omega
          constructor
          · rintro ⟨v, hv, hov⟩
            exact absurd (hall v hv) hov.1
          · intro _
            refine ⟨0, hac, Nat.zero_le _, ?_⟩
            rw [List.insertIdx_zero]
            exact List.pairwise_cons.mpr ⟨hall, hs⟩
        · cases vs with
          | nil => cases hlast
          | cons v0 tl =>
            have hv0 : headv = v0 := by
              rw [List.head?_cons, Option.some.injEq] at hhead
              exact hhead.symm
            subst hv0
            cases tl with
            | nil =>
              have hlv : headv = lastv := by simpa using hlast
              have hgtl2 : ¬ rangeGt nv headv := by rw [hlv]; exact hgtl
              have hov0 : overlaps nv headv := ⟨hlth, hgtl2⟩
              have hcond : ¬ (rangeLt headv nv ∧ rangeLt nv headv) :=
                fun hand => hov0.2 hand.1
              have hac : addCore [headv] nv = .error .overlap := by
                simp [addCore, bsearch, hcond, hgtl2, hlth]
              constructor
              · intro _; exact hac
              · intro hd
                exact absurd hov0 (hd headv (List.mem_cons_self _ _))
            | cons v1 tl2 =>
              have hlen2 : 2 ≤ (headv :: v1 :: tl2).length := by simp
              have hstarts : ((headv :: v1 :: tl2).map (·.start)).length
                  = (headv :: v1 :: tl2).length := List.length_map _ _
              have hgetmap : ∀ (i : Nat), ((headv :: v1 :: tl2).map (·.start))[i]?
                  = ((headv :: v1 :: tl2)[i]?).map (·.start) := fun i =>
                (List.getElem?_map _ _ i)
              have hpg := List.pairwise_iff_getElem.mp hs
              constructor
              · intro hov
                cases hbs : bsearch ((headv :: v1 :: tl2).map (·.start)) nv.start
                    (headv :: v1 :: tl2).length 0 ((headv :: v1 :: tl2).length - 1) with
                | error e =>
                  have hcrash := bsearch_no_crash ((headv :: v1 :: tl2).map (·.start))
                    nv.start (headv :: v1 :: tl2).length 0 ((headv :: v1 :: tl2).length - 1)
                    (by omega) (by omega)
                  rcases bsearch_error_cases _ _ _ _ _ _ hbs with rfl | rfl
                  · simp only [addCore]
                    rw [hlast]
                    dsimp only
                    rw [if_neg hgtl]
                    rw [show (headv :: v1 :: tl2).head? = some headv from rfl]
                    dsimp only
                    rw [if_neg hlth, hbs]
                  · exact absurd hbs hcrash
                | ok p =>
                  obtain ⟨lf, rf⟩ := p
                  obtain ⟨hlf0, hrf, hrfle⟩ :=
                    bsearch_ok_shape _ _ _ _ _ _ _ (by omega) hbs
                  subst hrf
                  have hlflen : lf < (headv :: v1 :: tl2).length := by omega
                  have hlf1len : lf + 1 < (headv :: v1 :: tl2).length := by omega
                  have hfalse : ¬ (rangeLt (headv :: v1 :: tl2)[lf] nv ∧
                      rangeLt nv (headv :: v1 :: tl2)[lf + 1]) := by
                    rintro ⟨hA, hB⟩
                    obtain ⟨w, hw, hovw⟩ := hov
                    obtain ⟨⟨j, hj⟩, rfl⟩ := List.mem_iff_get.mp hw
                    simp only [List.get_eq_getElem] at hovw
                    rcases Nat.lt_or_ge j (lf + 1) with hjlf | hjlf
                    · rcases Nat.lt_or_ge j lf with hjlf2 | hjlf2
                      · have hrel := hpg j lf hj hlflen hjlf2
                        have hplf := hpos _ (List.getElem_mem hlflen)
                        refine hovw.2 ?_
                        unfold rangeLt rangeGt rangeLen at *
                        omega
                      · have hje : j = lf := by omega
                        subst hje
                        exact hovw.2 hA
                    · rcases Nat.lt_or_ge (lf + 1) j with hjlf2 | hjlf2
                      · have hrel := hpg (lf + 1) j hlf1len hj hjlf2
                        have hplf := hpos _ (List.getElem_mem hlf1len)
                        refine hovw.1 ?_
                        unfold rangeLt rangeGt rangeLen at *
                        omega
                      · have hje : j = lf + 1 := by omega
                        subst hje
                        exact hovw.1 hB
                  simp only [addCore]
                  rw [hlast]
                  dsimp only
                  rw [if_neg hgtl]
                  rw [show (headv :: v1 :: tl2).head? = some headv from rfl]
                  dsimp only
                  rw [if_neg hlth, hbs]
                  dsimp only
                  rw [List.getElem?_eq_getElem hlflen, List.getElem?_eq_getElem hlf1len]
                  dsimp only
                  rw [if_neg hfalse]
              · intro hd
                have hdisj : ∀ v ∈ headv :: v1 :: tl2, rangeLt nv v ∨ rangeLt v nv := by
                  intro v hv
                  have hnov := hd v hv
                  unfold overlaps at hnov
                  push_neg at hnov
                  by_cases hc : rangeLt nv v
                  · exact Or.inl hc
                  · exact Or.inr (hnov hc)
                have hs0 : ((headv :: v1 :: tl2).map (·.start))[0]? = some headv.start := rfl
                have hlastidx : (headv :: v1 :: tl2)[(headv :: v1 :: tl2).length - 1]?
                    = some lastv := by
                  rw [← List.getLast?_eq_getElem?]
                  exact hlast
                have hsr : ((headv :: v1 :: tl2).map (·.start))[(headv :: v1 :: tl2).length - 1]?
                    = some lastv.start := by
                  rw [hgetmap, hlastidx]
                  rfl
                have hv0start : headv.start < nv.start := by
                  rcases hdisj headv (List.mem_cons_self _ _) with hlt | hgt
                  · exact absurd hlt hlth
                  · have := hpos headv (List.mem_cons_self _ _)
                    unfold rangeLt rangeLen at *
                    omega
                have hlaststart : nv.start < lastv.start := by
                  rcases hdisj lastv hlastmem with hlt | hgt
                  · unfold rangeLt rangeLen at *
                    omega
                  · exact absurd hgt hgtl
                rcases bsearch_spec ((headv :: v1 :: tl2).map (·.start)) nv.start
                    (headv :: v1 :: tl2).length 0 ((headv :: v1 :: tl2).length - 1)
                    headv.start lastv.start (by omega) (by omega) (by omega)
                    hs0 hsr hv0start hlaststart with
                  ⟨_, hmem⟩ | ⟨lf, a, b, heq, hlf0, hlfr, ha, hb, hat, htb⟩
                · obtain ⟨w, hw, hws⟩ := List.mem_map.mp hmem
                  rcases hdisj w hw with hlt | hgt
                  · unfold rangeLt rangeLen at *
                    omega
                  · have := hpos w hw
                    unfold rangeLt rangeLen at *
                    omega
                · have hlflen : lf < (headv :: v1 :: tl2).length := by omega
                  have hlf1len : lf + 1 < (headv :: v1 :: tl2).length := by omega
                  have hva : (headv :: v1 :: tl2)[lf]? = some (headv :: v1 :: tl2)[lf] :=
                    List.getElem?_eq_getElem hlflen
                  have hvb : (headv :: v1 :: tl2)[lf + 1]? = some (headv :: v1 :: tl2)[lf + 1] :=
                    List.getElem?_eq_getElem hlf1len
                  have haa : a = (headv :: v1 :: tl2)[lf].start := by
                    rw [hgetmap, hva] at ha
                    simpa using ha.symm
                  have hbb : b = (headv :: v1 :: tl2)[lf + 1].start := by
                    rw [hgetmap, hvb] at hb
                    simpa using hb.symm
                  have hAl : rangeLt (headv :: v1 :: tl2)[lf] nv := by
                    rcases hdisj _ (List.getElem_mem hlflen) with hlt | hgt
                    · exfalso
                      subst haa
                      unfold rangeLt rangeLen at *
                      omega
                    · exact hgt
                  have hBr : rangeLt nv (headv :: v1 :: tl2)[lf + 1] := by
                    rcases hdisj _ (List.getElem_mem hlf1len) with hlt | hgt
                    · exact hlt
                    · exfalso
                      subst hbb
                      have := hpos _ (List.getElem_mem hlf1len)
                      unfold rangeLt rangeGt rangeLen at *
                      omega
                  have hac : addCore (headv :: v1 :: tl2) nv = .ok (lf + 1) := by
                    simp only [addCore]
                    rw [hlast]
                    dsimp only
                    rw [if_neg hgtl]
                    rw [show (headv :: v1 :: tl2).head? = some headv from rfl]
                    dsimp only
                    rw [if_neg hlth, heq]
                    dsimp only
                    rw [hva, hvb]
                    dsimp only
                    rw [if_pos ⟨hAl, hBr⟩]
                  refine ⟨lf + 1, hac, by omega, ?_⟩
                  refine pairwise_insertIdx _ (lf + 1) nv (by omega) hs
                    (fun j hj hjlt => ?_) (fun j hj hjge => ?_)
                  · simp only [List.get_eq_getElem]
                    rcases Nat.lt_or_ge j lf with hj2 | hj2
                    · have hrel := hpg j lf hj hlflen hj2
                      subst haa
                      unfold rangeLt rangeLen at *
                      omega
                    · have hje : j = lf := by omega
                      subst hje
                      exact hAl
                  · simp only [List.get_eq_getElem]
                    rcases Nat.lt_or_ge (lf + 1) j with hj2 | hj2
                    · have hrel := hpg (lf + 1) j hlf1len hj hj2
                      have := hpos _ (List.getElem_mem hlf1len)
                      unfold rangeLt rangeLen at *
                      omega
                    · have hje : j = lf + 1 := by omega
                      subst hje
                      exact hBr

/-! Heap-level behaviour of `add_subrange` under the tree invariant. -/

theorem add_subrange_eq {st : State} {n : NodeId} {rec : NodeRec}
    {vs : List RangeV} {offset length : Int} {data : Option Data}
    (hl : lookup st n = some rec)
    (hv : viewsOf st rec.subranges = some vs)
    (hb : ¬ (offset < 0 ∨ length < 0 ∨ offset + length > rec.stop)) :
    add_subrange st n offset length data =
      match addCore vs ⟨offset, offset + length⟩ with
      | .error e =>
        (⟨st.nodes ++ [⟨offset, offset + length, data, some n, []⟩]⟩, .error e)
      | .ok idx =>
        (updateSubs ⟨st.nodes ++ [⟨offset, offset + length, data, some n, []⟩]⟩ n
            (rec.subranges.insertIdx idx st.nodes.length), .ok st.nodes.length) := by
  unfold add_subrange
  rw [hl]
  dsimp only
  rw [if_neg hb]
  simp only [mkByteRange, alloc]
  rw [if_neg (by simp)]
  dsimp only
  have hv1 : viewsOf ⟨st.nodes ++ [⟨offset, offset + length, data, some n, []⟩]⟩
      rec.subranges = some vs := by
    rw [viewsOf_append_frame _ (viewsOf_valid hv)]
    exact hv
  rw [hv1]

theorem overlaps_symm {a b : RangeV} (h : overlaps a b) : overlaps b a :=
  ⟨h.2, h.1⟩

theorem pairwise_start_lt {vs : List RangeV} (hs : List.Pairwise rangeLt vs)
    (hpos : ∀ v ∈ vs, 0 < rangeLen v) :
    List.Pairwise (fun a b : RangeV => a.start < b.start) vs := by
  refine hs.imp_of_mem ?_
  intro a b ha _ hab
  have := hpos a ha
  unfold rangeLt rangeLen at *
  omega

theorem add_subrange_step_ok {st : State} {n : NodeId} {rec : NodeRec}
    {vs : List RangeV} {offset length : Int} {data : Option Data}
    (hl : lookup st n = some rec)
    (hv : viewsOf st rec.subranges = some vs)
    (hs : List.Pairwise rangeLt vs)
    (hpos : ∀ v ∈ vs, 0 < rangeLen v)
    (hstart : 0 ≤ rec.start)
    (hoff : 0 ≤ offset) (hlen : 0 < length)
    (hbound : offset + length ≤ rangeLen (view rec))
    (hd : ∀ v ∈ vs, ¬ overlaps ⟨offset, offset + length⟩ v) :
    ∃ st2 idx,
      add_subrange st n offset length data = (st2, .ok st.nodes.length) ∧
      idx ≤ vs.length ∧
      lookup st2 n =
        some { rec with subranges := rec.subranges.insertIdx idx st.nodes.length } ∧
      viewsOf st2 (rec.subranges.insertIdx idx st.nodes.length)
        = some (vs.insertIdx idx ⟨offset, offset + length⟩) ∧
      List.Pairwise rangeLt (vs.insertIdx idx ⟨offset, offset + length⟩) := by
  have hb : ¬ (offset < 0 ∨ length < 0 ∨ offset + length > rec.stop) := by
    unfold rangeLen view at hbound
    dsimp only at hbound
    omega
  obtain ⟨idx, hac, hle, hpair⟩ :=
    (addCore_spec vs ⟨offset, offset + length⟩ hs hpos (by unfold rangeLen; dsimp; omega)).2 hd
  rw [add_subrange_eq hl hv hb, hac]
  dsimp only
  have hvalid := viewsOf_valid hv
  have hnewlook : lookup ⟨st.nodes ++ [⟨offset, offset + length, data, some n, []⟩]⟩
      st.nodes.length = some ⟨offset, offset + length, data, some n, []⟩ :=
    lookup_append_new st _
  have hidslen : idx ≤ rec.subranges.length := by
    rw [← viewsOf_length hv]
    exact hle
  have hv1 : viewsOf ⟨st.nodes ++ [⟨offset, offset + length, data, some n, []⟩]⟩
      rec.subranges = some vs := by
    rw [viewsOf_append_frame _ hvalid]
    exact hv
  refine ⟨_, idx, rfl, hle, ?_, ?_, hpair⟩
  · exact lookup_updateSubs_self _ (by rw [lookup_append_old st _ (lookup_lt hl)]; exact hl)
  · rw [viewsOf_updateSubs]
    exact viewsOf_insertIdx hnewlook rec.subranges vs idx hv1 hidslen

/-- Induction driver: adding a list of pairwise-disjoint, positive,
in-bounds spans one at a time always succeeds, and the children stay
sorted and are a permutation of the old children plus the added spans. -/
theorem addAll_ok :
    ∀ (spans : List (Int × Int)) (st : State) (n : NodeId) (rec : NodeRec)
      (vs : List RangeV),
      lookup st n = some rec →
      viewsOf st rec.subranges = some vs →
      List.Pairwise rangeLt vs →
      (∀ v ∈ vs, 0 < rangeLen v) →
      0 ≤ rec.start →
      (∀ p ∈ spans, 0 ≤ p.1 ∧ 0 < p.2 ∧ p.1 + p.2 ≤ rangeLen (view rec)) →
      (∀ p ∈ spans, ∀ v ∈ vs, ¬ overlaps ⟨p.1, p.1 + p.2⟩ v) →
      List.Pairwise
        (fun p q : Int × Int => ¬ overlaps ⟨p.1, p.1 + p.2⟩ ⟨q.1, q.1 + q.2⟩) spans →
      ∃ st2 rec2, addAll st n spans = (st2, .ok ()) ∧ lookup st2 n = some rec2 ∧
        rec2.start = rec.start ∧ rec2.stop = rec.stop ∧
        ∃ vs2, viewsOf st2 rec2.subranges = some vs2 ∧
          List.Pairwise rangeLt vs2 ∧ (∀ v ∈ vs2, 0 < rangeLen v) ∧
          vs2.Perm ((spans.map fun p => RangeV.mk p.1 (p.1 + p.2)) ++ vs)
  | [], st, n, rec, vs, hl, hv, hs, hpos, hstart, _, _, _ =>
    ⟨st, rec, rfl, hl, rfl, rfl, vs, hv, hs, hpos, by simp⟩
  | (o, l) :: rest, st, n, rec, vs, hl, hv, hs, hpos, hstart, hin, hdis, hpw => by
    have hspan := hin (o, l) (List.mem_cons_self _ _)
    obtain ⟨st1, idx, heq, hle, hl1, hv1, hs1⟩ :=
      add_subrange_step_ok hl hv hs hpos hstart hspan.1 hspan.2.1 hspan.2.2
        (hdis (o, l) (List.mem_cons_self _ _))
    have hmem1 : ∀ v ∈ vs.insertIdx idx ⟨o, o + l⟩, v = ⟨o, o + l⟩ ∨ v ∈ vs :=
      fun v hvm => (List.mem_insertIdx hle).mp hvm
    have hpos1 : ∀ v ∈ vs.insertIdx idx ⟨o, o + l⟩, 0 < rangeLen v := by
      intro v hvm
      rcases hmem1 v hvm with rfl | hm
      · unfold rangeLen
        dsimp only
        omega
      · exact hpos v hm
    have hin1 : ∀ p ∈ rest, 0 ≤ p.1 ∧ 0 < p.2 ∧
        p.1 + p.2 ≤ rangeLen (view { rec with
          subranges := rec.subranges.insertIdx idx st.nodes.length }) := by
      intro p hp
      exact hin p (List.mem_cons_of_mem _ hp)
    have hdis1 : ∀ p ∈ rest, ∀ v ∈ vs.insertIdx idx ⟨o, o + l⟩,
        ¬ overlaps ⟨p.1, p.1 + p.2⟩ v := by
      intro p hp v hvm
      rcases hmem1 v hvm with rfl | hm
      · exact fun hov => (List.pairwise_cons.mp hpw).1 p hp (overlaps_symm hov)
      · exact hdis p (List.mem_cons_of_mem _ hp) v hm
    obtain ⟨st2, rec2, heq2, hl2, hst2, hsp2, vs2, hv2, hs2, hpos2, hperm⟩ :=
      addAll_ok rest st1 n _ _ hl1 hv1 hs1 hpos1 (by dsimp; omega) hin1 hdis1
        (List.pairwise_cons.mp hpw).2
    refine ⟨st2, rec2, ?_, hl2, by dsimp at hst2 ⊢; omega, by dsimp at hsp2 ⊢; omega,
      vs2, hv2, hs2, hpos2, ?_⟩
    · unfold addAll
      rw [heq]
      dsimp only
      exact heq2
    · refine hperm.trans ?_
      have h1 : (vs.insertIdx idx ⟨o, o + l⟩).Perm (⟨o, o + l⟩ :: vs) :=
        insertIdx_perm _ vs idx hle
      refine ((h1.append_left _).trans ?_)
      simp only [List.map_cons, List.cons_append]
      exact List.perm_middle

/-- Main theorem for amended claim C5: for positive-length spans on a
node whose children are sorted, disjoint and positive, an in-bounds span
that overlaps an existing child makes `add_subrange` fail with the
overlap error; a span disjoint from every child succeeds and the children
views become the sorted insertion of the new span (still pairwise
disjoint and strictly sorted by `start`); and inserting any list of
pairwise-disjoint positive in-bounds spans into a childless node in any
order succeeds with the final children a permutation of the spans,
strictly sorted by `start`. -/
theorem c5_amended_sorted_disjoint_insertion :
  (∀ st n rec vs offset length data,
     lookup st n = some rec →
     viewsOf st rec.subranges = some vs →
     List.Pairwise rangeLt vs →
     (∀ v ∈ vs, 0 < rangeLen v) →
     0 ≤ rec.start → 0 ≤ offset → 0 < length →
     offset + length ≤ rangeLen (view rec) →
     ((∃ v ∈ vs, overlaps ⟨offset, offset + length⟩ v) →
        (add_subrange st n offset length data).2 = .error .overlap) ∧
     ((∀ v ∈ vs, ¬ overlaps ⟨offset, offset + length⟩ v) →
        ∃ st2 idx, add_subrange st n offset length data = (st2, .ok st.nodes.length) ∧
          childViews st2 n = some (vs.insertIdx idx ⟨offset, offset + length⟩) ∧
          List.Pairwise rangeLt (vs.insertIdx idx ⟨offset, offset + length⟩) ∧
          List.Pairwise (fun a b : RangeV => a.start < b.start)
            (vs.insertIdx idx ⟨offset, offset + length⟩))) ∧
  (∀ st n rec spans,
     lookup st n = some rec → rec.subranges = [] → 0 ≤ rec.start →
     (∀ p ∈ spans, 0 ≤ p.1 ∧ 0 < p.2 ∧ p.1 + p.2 ≤ rangeLen (view rec)) →
     List.Pairwise
       (fun p q : Int × Int => ¬ overlaps ⟨p.1, p.1 + p.2⟩ ⟨q.1, q.1 + q.2⟩) spans →
     ∃ st2 vs2, (addAll st n spans).2 = .ok () ∧ childViews st2 n = some vs2 ∧
       (addAll st n spans).1 = st2 ∧
       List.Pairwise (fun a b : RangeV => a.start < b.start) vs2 ∧
       vs2.Perm (spans.map fun p => RangeV.mk p.1 (p.1 + p.2))) := by
  constructor
  · intro st n rec vs offset length data hl hv hs hpos hstart hoff hlen hbound
    have hb : ¬ (offset < 0 ∨ length < 0 ∨ offset + length > rec.stop) := by
      unfold rangeLen view at hbound
      dsimp only at hbound
      omega
    constructor
    · intro hov
      have hover :=
        (addCore_spec vs ⟨offset, offset + length⟩ hs hpos
          (by unfold rangeLen; dsimp; omega)).1 hov
      rw [add_subrange_eq hl hv hb, hover]
    · intro hd
      obtain ⟨st2, idx, heq, hle, hl1, hv1, hs1⟩ :=
        add_subrange_step_ok hl hv hs hpos hstart hoff hlen hbound hd
      refine ⟨st2, idx, heq, ?_, hs1, ?_⟩
      · unfold childViews
        rw [hl1]
        dsimp only
        exact hv1
      · refine pairwise_start_lt hs1 ?_
        intro v hvm
        rcases (List.mem_insertIdx hle).mp hvm with rfl | hm
        · unfold rangeLen
          dsimp only
          omega
        · exact hpos v hm
  · intro st n rec spans hl hnil hstart hin hpw
    obtain ⟨st2, rec2, heq, hl2, _, _, vs2, hv2, hs2, hpos2, hperm⟩ :=
      addAll_ok spans st n rec [] hl (by rw [hnil]; rfl) (by simp) (by simp) hstart
        hin (by simp) hpw
    refine ⟨st2, vs2, by rw [heq], ?_, by rw [heq], pairwise_start_lt hs2 hpos2, ?_⟩
    · unfold childViews
      rw [hl2]
      dsimp only
      exact hv2
    · simpa using hperm

/-- Witness for the hypotheses of `c5_amended_sorted_disjoint_insertion`:
on the root with children `[0,1)`, `[2,3)`, `[4,5)`, the overlapping span
`[2,1)` is rejected with the overlap error. -/
theorem c5_amended_witness :
  (add_subrange exC5 0 2 1 none).2 = .error .overlap :=
  ((c5_amended_sorted_disjoint_insertion.1 exC5 0
      ⟨0, 10, none, none, [1, 2, 3]⟩ [⟨0, 1⟩, ⟨2, 3⟩, ⟨4, 5⟩] 2 1 none
      rfl rfl (by decide) (by decide) (by decide) (by decide) (by decide)
      (by decide)).1 ⟨⟨2, 3⟩, by decide, by decide⟩)

/-! Frame lemmas: every mutation is an allocation or a `subranges`
overwrite, so the `start` and `parent` fields of pre-existing nodes never
change. -/

theorem agree_refl (st : State) : AgreeSP st st :=
  fun _ r h => ⟨r, h, rfl, rfl⟩

theorem agree_trans {st1 st2 st3 : State} (h12 : AgreeSP st1 st2)
    (h23 : AgreeSP st2 st3) : AgreeSP st1 st3 := by
  intro i r h
  obtain ⟨r2, h2, hs2, hp2⟩ := h12 i r h
  obtain ⟨r3, h3, hs3, hp3⟩ := h23 i r2 h2
  exact ⟨r3, h3, by rw [hs3, hs2], by rw [hp3, hp2]⟩

theorem agree_append (st : State) (r : NodeRec) : AgreeSP st ⟨st.nodes ++ [r]⟩ :=
  fun i r0 h => ⟨r0, by rw [lookup_append_old st r (lookup_lt h)]; exact h, rfl, rfl⟩

theorem agree_updateSubs (st : State) (n : NodeId) (subs : List NodeId) :
    AgreeSP st (updateSubs st n subs) := by
  intro i r h
  by_cases hin : i = n
  · subst hin
    exact ⟨_, lookup_updateSubs_self subs h, rfl, rfl⟩
  · exact ⟨r, by rw [lookup_updateSubs_ne subs hin]; exact h, rfl, rfl⟩

theorem add_subrange_agree {st : State} {n : NodeId} {o l : Int} {d : Option Data}
    {st2 : State} {res : Except Err NodeId}
    (h : add_subrange st n o l d = (st2, res)) : AgreeSP st st2 := by
  unfold add_subrange at h
  cases hl : lookup st n with
  | none =>
    rw [hl] at h
    cases h
    exact agree_refl st
  | some rec =>
    rw [hl] at h
    dsimp only at h
    by_cases hb : o < 0 ∨ l < 0 ∨ o + l > rec.stop
    · rw [if_pos hb] at h
      cases h
      exact agree_refl st
    · rw [if_neg hb] at h
      simp only [mkByteRange, alloc] at h
      rw [if_neg (by simp)] at h
      dsimp only at h
      cases hv : viewsOf ⟨st.nodes ++ [⟨o, o + l, d, some n, []⟩]⟩ rec.subranges with
      | none =>
        rw [hv] at h
        cases h
        exact agree_append st _
      | some vs =>
        rw [hv] at h
        dsimp only at h
        cases hc : addCore vs ⟨o, o + l⟩ with
        | error e =>
          rw [hc] at h
          cases h
          exact agree_append st _
        | ok idx =>
          rw [hc] at h
          cases h
          exact agree_trans (agree_append st _) (agree_updateSubs _ _ _)

theorem add_subrange_len {st : State} {n : NodeId} {o l : Int} {d : Option Data}
    {st2 : State} {res : Except Err NodeId}
    (h : add_subrange st n o l d = (st2, res)) :
    st.nodes.length ≤ st2.nodes.length := by
  unfold add_subrange at h
  cases hl : lookup st n with
  | none => rw [hl] at h; cases h; exact Nat.le_refl _
  | some rec =>
    rw [hl] at h
    dsimp only at h
    by_cases hb : o < 0 ∨ l < 0 ∨ o + l > rec.stop
    · rw [if_pos hb] at h; cases h; exact Nat.le_refl _
    · rw [if_neg hb] at h
      simp only [mkByteRange, alloc] at h
      rw [if_neg (by simp)] at h
      dsimp only at h
      cases hv : viewsOf ⟨st.nodes ++ [⟨o, o + l, d, some n, []⟩]⟩ rec.subranges with
      | none => rw [hv] at h; cases h; simp
      | some vs =>
        rw [hv] at h
        dsimp only at h
        cases hc : addCore vs ⟨o, o + l⟩ with
        | error e => rw [hc] at h; cases h; simp
        | ok idx =>
          rw [hc] at h
          cases h
          unfold updateSubs
          simp [setSubsList_length]

theorem add_subrange_frame {st : State} {n : NodeId} {o l : Int} {d : Option Data}
    {st2 : State} {res : Except Err NodeId}
    (h : add_subrange st n o l d = (st2, res)) :
    ∀ i, i ≠ n → i < st.nodes.length → lookup st2 i = lookup st i := by
  intro i hin hilen
  unfold add_subrange at h
  cases hl : lookup st n with
  | none => rw [hl] at h; cases h; rfl
  | some rec =>
    rw [hl] at h
    dsimp only at h
    by_cases hb : o < 0 ∨ l < 0 ∨ o + l > rec.stop
    · rw [if_pos hb] at h; cases h; rfl
    · rw [if_neg hb] at h
      simp only [mkByteRange, alloc] at h
      rw [if_neg (by simp)] at h
      dsimp only at h
      cases hv : viewsOf ⟨st.nodes ++ [⟨o, o + l, d, some n, []⟩]⟩ rec.subranges with
      | none =>
        rw [hv] at h
        cases h
        exact lookup_append_old st _ hilen
      | some vs =>
        rw [hv] at h
        dsimp only at h
        cases hc : addCore vs ⟨o, o + l⟩ with
        | error e =>
          rw [hc] at h
          cases h
          exact lookup_append_old st _ hilen
        | ok idx =>
          rw [hc] at h
          cases h
          rw [lookup_updateSubs_ne _ hin]
          exact lookup_append_old st _ hilen

theorem add_subrange_fresh_id {st : State} {n : NodeId} {o l : Int} {d : Option Data}
    {st2 : State} {m : NodeId}
    (h : add_subrange st n o l d = (st2, .ok m)) : m = st.nodes.length := by
  obtain ⟨_, _, _, _, _, _, _, _, _, hm, _⟩ := add_subrange_ok_elim h
  exact hm

theorem relinkLoop_agree {newSr : NodeId} {off : Int} :
    ∀ {L : List NodeId} {st st3 : State} {res : Except Err Unit},
      relinkLoop st newSr off L = (st3, res) → AgreeSP st st3 := by
  intro L
  induction L with
  | nil =>
    intro st st3 res h
    cases h
    exact agree_refl st
  | cons ssr rest ih =>
    intro st st3 res h
    unfold relinkLoop at h
    cases hssr : lookup st ssr with
    | none => rw [hssr] at h; cases h; exact agree_refl st
    | some ssrRec =>
      rw [hssr] at h
      dsimp only at h
      cases hadd : add_subrange st newSr (ssrRec.start - off) (rangeLen (view ssrRec))
          ssrRec.data with
      | mk stA resA =>
        rw [hadd] at h
        cases resA with
        | error e =>
          dsimp only at h
          cases h
          exact add_subrange_agree hadd
        | ok newSsr =>
          dsimp only at h
          exact agree_trans (add_subrange_agree hadd)
            (agree_trans (agree_updateSubs stA newSsr ssrRec.subranges) (ih h))

theorem relinkLoop_frame {newSr : NodeId} {off : Int} :
    ∀ {L : List NodeId} {st st3 : State} {res : Except Err Unit},
      relinkLoop st newSr off L = (st3, res) →
      ∀ i, i ≠ newSr → i < st.nodes.length → lookup st3 i = lookup st i := by
  intro L
  induction L with
  | nil =>
    intro st st3 res h i _ _
    cases h
    rfl
  | cons ssr rest ih =>
    intro st st3 res h i hins hilen
    unfold relinkLoop at h
    cases hssr : lookup st ssr with
    | none => rw [hssr] at h; cases h; rfl
    | some ssrRec =>
      rw [hssr] at h
      dsimp only at h
      cases hadd : add_subrange st newSr (ssrRec.start - off) (rangeLen (view ssrRec))
          ssrRec.data with
      | mk stA resA =>
        rw [hadd] at h
        cases resA with
        | error e =>
          dsimp only at h
          cases h
          exact add_subrange_frame hadd i hins hilen
        | ok newSsr =>
          dsimp only at h
          have hlenA : st.nodes.length ≤ stA.nodes.length := add_subrange_len hadd
          have hnewSsr : newSsr = st.nodes.length := add_subrange_fresh_id hadd
          have h1 : lookup stA i = lookup st i := add_subrange_frame hadd i hins hilen
          have hine : i ≠ newSsr := by rw [hnewSsr]; exact Nat.ne_of_lt hilen
          have hilenA : i < stA.nodes.length := Nat.lt_of_lt_of_le hilen hlenA
          have h2 : lookup (updateSubs stA newSsr ssrRec.subranges) i = lookup stA i :=
            lookup_updateSubs_ne _ hine
          have h3 := ih h i hins (by rw [updateSubs_length]; exact hilenA)
          rw [h3, h2, h1]

theorem relinkLoop_len {newSr : NodeId} {off : Int} :
    ∀ {L : List NodeId} {st st3 : State} {res : Except Err Unit},
      relinkLoop st newSr off L = (st3, res) →
      st.nodes.length ≤ st3.nodes.length := by
  intro L
  induction L with
  | nil => intro st st3 res h; cases h; exact Nat.le_refl _
  | cons ssr rest ih =>
    intro st st3 res h
    unfold relinkLoop at h
    cases hssr : lookup st ssr with
    | none => rw [hssr] at h; cases h; exact Nat.le_refl _
    | some ssrRec =>
      rw [hssr] at h
      dsimp only at h
      cases hadd : add_subrange st newSr (ssrRec.start - off) (rangeLen (view ssrRec))
          ssrRec.data with
      | mk stA resA =>
        rw [hadd] at h
        cases resA with
        | error e =>
          dsimp only at h
          cases h
          exact add_subrange_len hadd
        | ok newSsr =>
          dsimp only at h
          have h1 := add_subrange_len hadd
          have h2 := ih h
          rw [updateSubs_length] at h2
          omega

theorem parentsValidB_spec {st : State} (h : parentsValidB st = true) :
    ParentsValid st := by
  intro i r hl p hp
  unfold parentsValidB at h
  rw [List.all_eq_true] at h
  have hr : r ∈ st.nodes := by
    unfold lookup at hl
    exact List.getElem?_mem hl
  have h2 := h r hr
  rw [hp] at h2
  simpa using h2

theorem absWalk_agree {st st2 : State} (hag : AgreeSP st st2) (hpv : ParentsValid st) :
    ∀ (fuel : Nat) (p : Option NodeId) (acc : Int),
      (∀ j, p = some j → j < st.nodes.length) →
      absWalk st2 fuel p acc = absWalk st fuel p acc := by
  intro fuel
  induction fuel with
  | zero => intro p acc _; cases p <;> rfl
  | succ f ih =>
    intro p acc hp
    cases p with
    | none => rfl
    | some j =>
      have hj : j < st.nodes.length := hp j rfl
      obtain ⟨r, hr⟩ : ∃ r, lookup st j = some r :=
        ⟨_, List.getElem?_eq_getElem hj⟩
      obtain ⟨r2, hr2, hs2, hp2⟩ := hag j r hr
      unfold absWalk
      rw [hr, hr2]
      dsimp only
      rw [hs2, hp2]
      exact ih r.parent (acc + r.start) (fun j2 hj2 => hpv j r hr j2 hj2)

theorem absStartFuel_agree {st st2 : State} (hag : AgreeSP st st2)
    (hpv : ParentsValid st) {i : NodeId} (hi : i < st.nodes.length) (fuel : Nat) :
    absStartFuel fuel st2 i = absStartFuel fuel st i := by
  obtain ⟨r, hr⟩ : ∃ r, lookup st i = some r :=
    ⟨_, List.getElem?_eq_getElem hi⟩
  obtain ⟨r2, hr2, hs2, hp2⟩ := hag i r hr
  unfold absStartFuel
  rw [hr, hr2]
  dsimp only
  rw [hs2, hp2]
  exact absWalk_agree hag hpv _ r.parent r.start (fun j hj => hpv i r hr j hj)

theorem scanBoundary_lookup {st : State} {tmp : RangeV} :
    ∀ {ids L : List NodeId}, scanBoundary st tmp ids = .ok L →
      ∀ id ∈ L, ∃ r, lookup st id = some r := by
  intro ids
  induction ids with
  | nil =>
    intro L h id hid
    cases h
    cases hid
  | cons j rest ih =>
    intro L h id hid
    unfold scanBoundary at h
    cases hj : lookup st j with
    | none => rw [hj] at h; cases h
    | some r =>
      rw [hj] at h
      dsimp only at h
      by_cases h1 : rangeLt (view r) tmp
      · rw [if_pos h1] at h
        exact ih h id hid
      · rw [if_neg h1] at h
        by_cases h2 : rangeGt (view r) tmp
        · rw [if_pos h2] at h
          cases h
          cases hid
        · rw [if_neg h2] at h
          by_cases h3 : rangeIn (view r) tmp
          · rw [if_pos h3] at h
            cases hrec : scanBoundary st tmp rest with
            | error e => rw [hrec] at h; cases h
            | ok L2 =>
              rw [hrec] at h
              simp only [Except.map, Except.ok.injEq] at h
              subst h
              rcases List.mem_cons.mp hid with rfl | hm
              · exact ⟨r, hj⟩
              · exact ih hrec id hm
          · rw [if_neg h3] at h
            cases h

theorem mem_insertIdx_self {α : Type} (a : α) :
    ∀ (l : List α) (idx : Nat), idx ≤ l.length → a ∈ l.insertIdx idx a
  | l, 0, _ => by
    rw [List.insertIdx_zero]
    exact List.mem_cons_self a l
  | [], idx + 1, hle => by simp at hle
  | x :: rest, idx + 1, hle => by
    rw [List.insertIdx_succ_cons]
    exact List.mem_cons_of_mem x (mem_insertIdx_self a rest idx (by simpa using hle))

theorem mem_insertIdx_of_mem {α : Type} (a : α) :
    ∀ (l : List α) (idx : Nat) (c : α), c ∈ l → c ∈ l.insertIdx idx a
  | l, 0, c, hc => by
    rw [List.insertIdx_zero]
    exact List.mem_cons_of_mem a hc
  | [], _ + 1, c, hc => by cases hc
  | x :: rest, idx + 1, c, hc => by
    rw [List.insertIdx_succ_cons]
    rcases List.mem_cons.mp hc with rfl | hm
    · exact List.mem_cons_self c _
    · exact List.mem_cons_of_mem x (mem_insertIdx_of_mem a rest idx c hm)

/-- The insertion index returned by `addCore` never exceeds the number of
children: it is either `vs.length` (append), `0` (prepend), or the right
end of the probed slot, which indexes an existing child. -/
theorem addCore_le {vs : List RangeV} {nv : RangeV} {idx : Nat}
    (h : addCore vs nv = .ok idx) : idx ≤ vs.length := by
  unfold addCore at h
  cases hlast : vs.getLast? with
  | none =>
    rw [hlast] at h
    dsimp only at h
    rw [Except.ok.injEq] at h
    exact Nat.le_of_eq h.symm
  | some lastv =>
    rw [hlast] at h
    dsimp only at h
    by_cases hgt : rangeGt nv lastv
    · rw [if_pos hgt] at h
      rw [Except.ok.injEq] at h
      exact Nat.le_of_eq h.symm
    · rw [if_neg hgt] at h
      cases hhead : vs.head? with
      | none => rw [hhead] at h; simp at h
      | some headv =>
        rw [hhead] at h
        dsimp only at h
        by_cases hlt : rangeLt nv headv
        · rw [if_pos hlt] at h
          rw [Except.ok.injEq] at h
          rw [← h]
          exact Nat.zero_le _
        · rw [if_neg hlt] at h
          cases hbs : bsearch (vs.map (·.start)) nv.start vs.length 0 (vs.length - 1) with
          | error e => rw [hbs] at h; simp at h
          | ok p =>
            obtain ⟨l, r⟩ := p
            rw [hbs] at h
            dsimp only at h
            cases hl2 : vs[l]? with
            | none =>
              cases hr2 : vs[r]? with
              | none => rw [hl2, hr2] at h; simp at h
              | some rv => rw [hl2, hr2] at h; simp at h
            | some lv =>
              cases hr2 : vs[r]? with
              | none => rw [hl2, hr2] at h; simp at h
              | some rv =>
                rw [hl2, hr2] at h
                dsimp only at h
                by_cases hcond : rangeLt lv nv ∧ rangeLt nv rv
                · rw [if_pos hcond] at h
                  rw [Except.ok.injEq] at h
                  subst h
                  have hrlt : r < vs.length := by
                    by_contra hge
                    push_neg at hge
                    rw [List.getElem?_eq_none hge] at hr2
                    cases hr2
                  exact Nat.le_of_lt hrlt
                · rw [if_neg hcond] at h; simp at h

/-- The relocation loop only ever grows `newSr`'s `subranges` list (each
iteration's `add_subrange` inserts the fresh child into it and the
`new_ssr.subranges = ssr.subranges` overwrite touches only the fresh
node), so membership in it is preserved to the final state. -/
theorem relinkLoop_sub_mem {newSr : NodeId} {off : Int} :
    ∀ {L : List NodeId} {st st3 : State},
      relinkLoop st newSr off L = (st3, .ok ()) →
      ∀ {r : NodeRec}, lookup st newSr = some r →
      ∀ {id : NodeId}, id ∈ r.subranges →
        ∃ r3, lookup st3 newSr = some r3 ∧ id ∈ r3.subranges := by
  intro L
  induction L with
  | nil =>
    intro st st3 h r hr id hid
    cases h
    exact ⟨r, hr, hid⟩
  | cons ssr rest ih =>
    intro st st3 h r hr id hid
    unfold relinkLoop at h
    cases hssr : lookup st ssr with
    | none => rw [hssr] at h; simp at h
    | some ssrRec =>
      rw [hssr] at h
      dsimp only at h
      cases hadd : add_subrange st newSr (ssrRec.start - off) (rangeLen (view ssrRec))
          ssrRec.data with
      | mk stA resA =>
        rw [hadd] at h
        cases resA with
        | error e => simp at h
        | ok newSsr =>
          dsimp only at h
          obtain ⟨recSr, vsX, idxX, hlSr, _, _, _, _, _, hmX, hstA⟩ :=
            add_subrange_ok_elim hadd
          have hrr : r = recSr := by
            rw [hr] at hlSr
            exact (Option.some.injEq r recSr).mp hlSr
          have hlt : newSr < st.nodes.length := lookup_lt hr
          have hlookASr : lookup stA newSr
              = some { recSr with subranges := recSr.subranges.insertIdx idxX newSsr } := by
            rw [hstA]
            refine lookup_updateSubs_self _ ?_
            rw [lookup_append_old st _ hlt]
            exact hlSr
          have hlookBSr : lookup (updateSubs stA newSsr ssrRec.subranges) newSr
              = some { recSr with subranges := recSr.subranges.insertIdx idxX newSsr } := by
            rw [lookup_updateSubs_ne _ (by rw [hmX]; exact Nat.ne_of_lt hlt)]
            exact hlookASr
          have hmemB : id ∈ recSr.subranges.insertIdx idxX newSsr :=
            mem_insertIdx_of_mem newSsr recSr.subranges idxX id (by rw [← hrr]; exact hid)
          exact ih h hlookBSr hmemB

/-- Correspondence of the relocation loop: when it succeeds, it creates
one fresh node per relocated child, in order — the `k`-th new id is
exactly `st.nodes.length + k`, so none of them is a pre-existing node —
and in the final state the `k`-th fresh node's record is the `k`-th
relocated child re-created at offset `rk.start - off` under `newSr`
(`parent = some newSr`, same length and `data`) with `subranges` exactly
the original child's list; moreover each fresh id is a member of
`newSr`'s final `subranges` list. -/
theorem relink_spec {newSr : NodeId} {off : Int} :
    ∀ {L : List NodeId} {st st3 : State},
      relinkLoop st newSr off L = (st3, .ok ()) →
      newSr < st.nodes.length →
      (∀ id ∈ L, id < st.nodes.length ∧ id ≠ newSr) →
      ∃ newIds : List NodeId, newIds.length = L.length ∧
        (∀ (k : Nat) (hk2 : k < newIds.length),
          newIds.get ⟨k, hk2⟩ = st.nodes.length + k) ∧
        ∀ (k : Nat) (hk : k < L.length),
          ∃ rk, lookup st (L.get ⟨k, hk⟩) = some rk ∧
            ∃ hk2 : k < newIds.length,
              lookup st3 (newIds.get ⟨k, hk2⟩)
                = some ⟨rk.start - off, (rk.start - off) + rangeLen (view rk),
                    rk.data, some newSr, rk.subranges⟩ ∧
              ∃ r3, lookup st3 newSr = some r3 ∧
                newIds.get ⟨k, hk2⟩ ∈ r3.subranges := by
  intro L
  induction L with
  | nil =>
    intro st st3 h _ _
    cases h
    exact ⟨[], rfl, fun k hk2 => absurd hk2 (by simp),
      fun k hk => absurd hk (by simp)⟩
  | cons ssr rest ih =>
    intro st st3 h hnewlen hids
    unfold relinkLoop at h
    cases hssr : lookup st ssr with
    | none => rw [hssr] at h; simp at h
    | some ssrRec =>
      rw [hssr] at h
      dsimp only at h
      cases hadd : add_subrange st newSr (ssrRec.start - off) (rangeLen (view ssrRec))
          ssrRec.data with
      | mk stA resA =>
        rw [hadd] at h
        cases resA with
        | error e => simp at h
        | ok newSsr =>
          dsimp only at h
          have hnewSsr : newSsr = st.nodes.length := add_subrange_fresh_id hadd
          have hlenA : st.nodes.length ≤ stA.nodes.length := add_subrange_len hadd
          obtain ⟨recSr, vsX, idxX, hlSr, _, _, _, hvX, hcX, _, hstA⟩ :=
            add_subrange_ok_elim hadd
          have hlenA2 : stA.nodes.length = st.nodes.length + 1 := by
            rw [hstA, updateSubs_length]
            simp
          have hlookA : lookup stA newSsr =
              some ⟨ssrRec.start - off,
                (ssrRec.start - off) + rangeLen (view ssrRec),
                ssrRec.data, some newSr, []⟩ := by
            rw [hstA, hnewSsr]
            rw [lookup_updateSubs_ne _ (Nat.ne_of_gt (lookup_lt hlSr))]
            exact lookup_append_new st _
          have hlookB : lookup (updateSubs stA newSsr ssrRec.subranges) newSsr =
              some ⟨ssrRec.start - off,
                (ssrRec.start - off) + rangeLen (view ssrRec),
                ssrRec.data, some newSr, ssrRec.subranges⟩ :=
            lookup_updateSubs_self _ hlookA
          have hlenB : (updateSubs stA newSsr ssrRec.subranges).nodes.length
              = stA.nodes.length := updateSubs_length _ _ _
          have hlenB1 : (updateSubs stA newSsr ssrRec.subranges).nodes.length
              = st.nodes.length + 1 := by rw [hlenB, hlenA2]
          have hltB : newSsr < (updateSubs stA newSsr ssrRec.subranges).nodes.length := by
            rw [hlenB, hlenA2, hnewSsr]
            exact Nat.lt_succ_self _
          have hfin : lookup st3 newSsr
              = lookup (updateSubs stA newSsr ssrRec.subranges) newSsr :=
            relinkLoop_frame h newSsr (by rw [hnewSsr]; exact Nat.ne_of_gt hnewlen) hltB
          have hidx_le : idxX ≤ recSr.subranges.length := by
            have h1 := addCore_le hcX
            rw [viewsOf_length hvX] at h1
            exact h1
          have hlookASr : lookup stA newSr
              = some { recSr with subranges := recSr.subranges.insertIdx idxX newSsr } := by
            rw [hstA]
            refine lookup_updateSubs_self _ ?_
            rw [lookup_append_old st _ hnewlen]
            exact hlSr
          have hlookBSr : lookup (updateSubs stA newSsr ssrRec.subranges) newSr
              = some { recSr with subranges := recSr.subranges.insertIdx idxX newSsr } := by
            rw [lookup_updateSubs_ne _ (by rw [hnewSsr]; exact Nat.ne_of_lt hnewlen)]
            exact hlookASr
          obtain ⟨rSr3, hrSr3, hmemSr3⟩ :=
            relinkLoop_sub_mem h hlookBSr
              (mem_insertIdx_self newSsr recSr.subranges idxX hidx_le)
          have hrestlook : ∀ id ∈ rest,
              lookup (updateSubs stA newSsr ssrRec.subranges) id = lookup st id := by
            intro id hid
            have hid2 := hids id (List.mem_cons_of_mem _ hid)
            rw [lookup_updateSubs_ne _ (by rw [hnewSsr]; exact Nat.ne_of_lt hid2.1)]
            exact add_subrange_frame hadd id hid2.2 hid2.1
          have hidsB : ∀ id ∈ rest,
              id < (updateSubs stA newSsr ssrRec.subranges).nodes.length ∧ id ≠ newSr := by
            intro id hid
            have hid2 := hids id (List.mem_cons_of_mem _ hid)
            exact ⟨by rw [hlenB]; exact Nat.lt_of_lt_of_le hid2.1 hlenA, hid2.2⟩
          obtain ⟨newIds, hlen, hidsF, hcorr⟩ :=
            ih h (by rw [hlenB]; exact Nat.lt_of_lt_of_le hnewlen hlenA) hidsB
          refine ⟨newSsr :: newIds, by simp [hlen], ?_, ?_⟩
          · intro k hk2
            cases k with
            | zero =>
              show newSsr = st.nodes.length + 0
              rw [hnewSsr, Nat.add_zero]
            | succ k2 =>
              have hk2b : k2 < newIds.length := by simpa using hk2
              show newIds.get ⟨k2, hk2b⟩ = st.nodes.length + (k2 + 1)
              rw [hidsF k2 hk2b, hlenB1, Nat.add_assoc, Nat.add_comm 1 k2]
          · intro k hk
            cases k with
            | zero =>
              refine ⟨ssrRec, hssr, by simp, ?_, rSr3, hrSr3, ?_⟩
              · rw [show (newSsr :: newIds).get ⟨0, by simp⟩ = newSsr from rfl]
                rw [hfin]
                exact hlookB
              · rw [show (newSsr :: newIds).get ⟨0, by simp⟩ = newSsr from rfl]
                exact hmemSr3
            | succ k2 =>
              obtain ⟨rk, hrk, hk2, hcr, rSr, hrSr, hmem⟩ := hcorr k2 (by simpa using hk)
              refine ⟨rk, ?_, by simpa using hk2, ?_, rSr, hrSr, ?_⟩
              · rw [show (ssr :: rest).get ⟨k2 + 1, hk⟩
                    = rest.get ⟨k2, by simpa using hk⟩ from rfl] at *
                rw [← hrestlook _ (List.get_mem _ _ _)]
                exact hrk
              · rw [show (newSsr :: newIds).get ⟨k2 + 1, by simpa using hk2⟩
                    = newIds.get ⟨k2, hk2⟩ from rfl]
                exact hcr
              · rw [show (newSsr :: newIds).get ⟨k2 + 1, by simpa using hk2⟩
                    = newIds.get ⟨k2, hk2⟩ from rfl]
                exact hmem

/-- Main theorem for claim C10 (confirmed): after a successful
`insert_subrange`, (1) no pre-existing node's `abs_start()` changes — the
regroup never touches the `start` or `parent` field of any node that
already existed, so the whole parent-chain walk is unchanged, in
particular for every carried-over grandchild — (2) the returned grouping
node is the first fresh id, and (3) the relocation loop re-creates the
`k`-th removed child at the fresh id `st.nodes.length + 1 + k` (so none
of the re-created children is a pre-existing node and all are distinct
from the grouping node), the re-created child's final record translates
the original child under the grouping node (`start` shifted by the
grouping offset, same length and `data`, `parent` naming the grouping
node) with `subranges` exactly the original child's list, carried over
unchanged, and each of these fresh ids is a member of the grouping node's
final `subranges` list. -/
theorem c10_regroup_preserves_subtrees_and_abs_start :
  ∀ (st : State) (n : NodeId) (offset length : Int) (data : Option Data)
    (st3 : State) (m : NodeId) (rec : NodeRec) (L : List NodeId),
    parentsValidB st = true →
    lookup st n = some rec →
    scanBoundary st ⟨offset, offset + length⟩ rec.subranges = .ok L →
    (∀ id ∈ L, id ≠ n) →
    insert_subrange st n offset length data = (st3, .ok m) →
    (∀ i, i < st.nodes.length →
       ∀ fuel, absStartFuel fuel st3 i = absStartFuel fuel st i) ∧
    m = st.nodes.length ∧
    (∃ newIds : List NodeId, newIds.length = L.length ∧
      (∀ (k : Nat) (hk2 : k < newIds.length),
        newIds.get ⟨k, hk2⟩ = st.nodes.length + 1 + k) ∧
      ∀ (k : Nat) (hk : k < L.length),
        ∃ rk, lookup st (L.get ⟨k, hk⟩) = some rk ∧
          ∃ hk2 : k < newIds.length,
            lookup st3 (newIds.get ⟨k, hk2⟩)
              = some ⟨rk.start - offset, (rk.start - offset) + rangeLen (view rk),
                  rk.data, some m, rk.subranges⟩ ∧
            ∃ rm, lookup st3 m = some rm ∧
              newIds.get ⟨k, hk2⟩ ∈ rm.subranges) := by
  intro st n offset length data st3 m rec L hpv hl hscan hLn hins
  unfold insert_subrange at hins
  rw [hl] at hins
  dsimp only at hins
  rw [hscan] at hins
  dsimp only at hins
  cases hadd : add_subrange (updateSubs st n (L.foldl List.erase rec.subranges))
      n offset length data with
  | mk stA resA =>
    rw [hadd] at hins
    cases resA with
    | error e => simp at hins
    | ok newSr =>
      dsimp only at hins
      cases hrel : relinkLoop stA newSr offset L with
      | mk stR resR =>
        rw [hrel] at hins
        cases resR with
        | error e => simp at hins
        | ok u =>
          dsimp only at hins
          simp only [Prod.mk.injEq, Except.ok.injEq] at hins
          obtain ⟨hst3, hm⟩ := hins
          subst hst3
          rw [← hm]
          have hlen1 : (updateSubs st n (L.foldl List.erase rec.subranges)).nodes.length
              = st.nodes.length := updateSubs_length _ _ _
          have hnewSr : newSr = st.nodes.length := by
            rw [add_subrange_fresh_id hadd, hlen1]
          obtain ⟨rec1, vs1, idx1, hlook1, _, _, _, _, _, _, hstA⟩ :=
            add_subrange_ok_elim hadd
          have hlenA : stA.nodes.length = st.nodes.length + 1 := by
            rw [hstA, updateSubs_length]
            simp [hlen1]
          have hLlt : ∀ id ∈ L, id < st.nodes.length := by
            intro id hid
            obtain ⟨r0, hr0⟩ := scanBoundary_lookup hscan id hid
            exact lookup_lt hr0
          refine ⟨?_, hnewSr, ?_⟩
          · intro i hi fuel
            have hag : AgreeSP st stR :=
              agree_trans (agree_updateSubs st n _)
                (agree_trans (add_subrange_agree hadd) (relinkLoop_agree hrel))
            exact absStartFuel_agree hag (parentsValidB_spec hpv) hi fuel
          · obtain ⟨newIds, hlenIds, hidsF, hcorr⟩ :=
              relink_spec hrel
                (by rw [hnewSr, hlenA]; exact Nat.lt_succ_self _)
                (by
                  intro id hid
                  refine ⟨by rw [hlenA]; exact Nat.lt_succ_of_lt (hLlt id hid), ?_⟩
                  rw [hnewSr]
                  exact Nat.ne_of_lt (hLlt id hid))
            refine ⟨newIds, hlenIds, ?_, ?_⟩
            · intro k hk2
              rw [hidsF k hk2, hlenA]
            · intro k hk
              obtain ⟨rk, hrk, hk2, hcr, rm, hrm, hmem⟩ := hcorr k hk
              refine ⟨rk, ?_, hk2, hcr, rm, hrm, hmem⟩
              have hmemL : L.get ⟨k, hk⟩ ∈ L := List.get_mem _ _ _
              rw [add_subrange_frame hadd _ (hLn _ hmemL)
                (by rw [hlen1]; exact hLlt _ hmemL)] at hrk
              rw [lookup_updateSubs_ne _ (hLn _ hmemL)] at hrk
              exact hrk

/-- Witness for the hypotheses of
`c10_regroup_preserves_subtrees_and_abs_start`: the grandchild (node 2)
of the regrouped child keeps its absolute start after
`insert_subrange(2, 3)` on the example tree. -/
theorem c10_regroup_witness :
  absStartFuel 10 (insert_subrange exC3 0 2 3 none).1 2 = absStartFuel 10 exC3 2 :=
  (c10_regroup_preserves_subtrees_and_abs_start exC3 0 2 3 none
      (insert_subrange exC3 0 2 3 none).1 3 ⟨0, 20, none, none, [1]⟩ [1]
      (by decide) rfl rfl (by decide) rfl).1 2 (by decide) 10

/-! The spans-boundary error can only come from the scan pass. -/

theorem addCore_ne_boundary (vs : List RangeV) (nv : RangeV) :
    addCore vs nv ≠ .error .boundary := by
  unfold addCore
  cases hlast : vs.getLast? with
  | none => simp
  | some lastv =>
    dsimp only
    by_cases hgt : rangeGt nv lastv
    · rw [if_pos hgt]; simp
    · rw [if_neg hgt]
      cases hhead : vs.head? with
      | none => simp
      | some headv =>
        dsimp only
        by_cases hlt : rangeLt nv headv
        · rw [if_pos hlt]; simp
        · rw [if_neg hlt]
          cases hbs : bsearch (vs.map (·.start)) nv.start vs.length 0 (vs.length - 1) with
          | error e =>
            dsimp only
            intro hc
            rw [Except.error.injEq] at hc
            rcases bsearch_error_cases _ _ _ _ _ _ hbs with rfl | rfl <;> cases hc
          | ok p =>
            obtain ⟨l, r⟩ := p
            dsimp only
            cases vs[l]? with
            | none => simp
            | some lv =>
              cases vs[r]? with
              | none => simp
              | some rv =>
                dsimp only
                by_cases hc : rangeLt lv nv ∧ rangeLt nv rv
                · rw [if_pos hc]; simp
                · rw [if_neg hc]; simp

theorem add_subrange_ne_boundary (st : State) (n : NodeId) (o l : Int)
    (d : Option Data) : (add_subrange st n o l d).2 ≠ .error .boundary := by
  unfold add_subrange
  cases hl : lookup st n with
  | none => simp
  | some rec =>
    dsimp only
    by_cases hb : o < 0 ∨ l < 0 ∨ o + l > rec.stop
    · rw [if_pos hb]; simp
    · rw [if_neg hb]
      simp only [mkByteRange, alloc]
      rw [if_neg (by simp)]
      dsimp only
      cases hv : viewsOf ⟨st.nodes ++ [⟨o, o + l, d, some n, []⟩]⟩ rec.subranges with
      | none => simp
      | some vs =>
        dsimp only
        cases hc : addCore vs ⟨o, o + l⟩ with
        | error e =>
          dsimp only
          intro hcon
          rw [Except.error.injEq] at hcon
          subst hcon
          exact addCore_ne_boundary vs ⟨o, o + l⟩ hc
        | ok idx => simp

theorem relinkLoop_ne_boundary (newSr : NodeId) (off : Int) :
    ∀ (L : List NodeId) (st : State),
      (relinkLoop st newSr off L).2 ≠ .error .boundary := by
  intro L
  induction L with
  | nil => intro st; simp [relinkLoop]
  | cons ssr rest ih =>
    intro st
    unfold relinkLoop
    cases hssr : lookup st ssr with
    | none => simp
    | some ssrRec =>
      dsimp only
      cases hadd : add_subrange st newSr (ssrRec.start - off) (rangeLen (view ssrRec))
          ssrRec.data with
      | mk stA resA =>
        cases resA with
        | error e =>
          dsimp only
          intro hcon
          rw [Except.error.injEq] at hcon
          subst hcon
          have := add_subrange_ne_boundary st newSr (ssrRec.start - off)
            (rangeLen (view ssrRec)) ssrRec.data
          rw [hadd] at this
          exact this rfl
        | ok newSsr =>
          dsimp only
          exact ih (updateSubs stA newSsr ssrRec.subranges)

/-- Main theorem for amended claim C1: when `insert_subrange` fails with
the spans-boundary error the state is completely unchanged (the scan pass
precedes every mutation); but when the scan succeeds and the inner
`add_subrange` then fails, the call returns that failure with the state
in which the contained children have already been removed — i.e. the
removal is not rolled back. -/
theorem c1_amended_boundary_atomic_bounds_not :
  (∀ (st : State) (n : NodeId) (offset length : Int) (data : Option Data)
     (st2 : State) (e : Err),
     insert_subrange st n offset length data = (st2, .error e) →
     e = .boundary → st2 = st) ∧
  (∀ (st : State) (n : NodeId) (rec : NodeRec) (offset length : Int)
     (data : Option Data) (L : List NodeId) (stA : State) (e : Err),
     lookup st n = some rec →
     scanBoundary st ⟨offset, offset + length⟩ rec.subranges = .ok L →
     add_subrange (updateSubs st n (L.foldl List.erase rec.subranges))
       n offset length data = (stA, .error e) →
     insert_subrange st n offset length data = (stA, .error e)) := by
  constructor
  · intro st n offset length data st2 e hins he
    subst he
    unfold insert_subrange at hins
    cases hl : lookup st n with
    | none => rw [hl] at hins; simp at hins
    | some rec =>
      rw [hl] at hins
      dsimp only at hins
      cases hscan : scanBoundary st ⟨offset, offset + length⟩ rec.subranges with
      | error e2 =>
        rw [hscan] at hins
        dsimp only at hins
        simp only [Prod.mk.injEq] at hins
        exact hins.1.symm
      | ok L =>
        rw [hscan] at hins
        dsimp only at hins
        cases hadd : add_subrange (updateSubs st n (L.foldl List.erase rec.subranges))
            n offset length data with
        | mk stA resA =>
          rw [hadd] at hins
          cases resA with
          | error e2 =>
            dsimp only at hins
            simp only [Prod.mk.injEq, Except.error.injEq] at hins
            exfalso
            have := add_subrange_ne_boundary
              (updateSubs st n (L.foldl List.erase rec.subranges)) n offset length data
            rw [hadd] at this
            rw [hins.2] at this
            exact this rfl
          | ok newSr =>
            dsimp only at hins
            cases hrel : relinkLoop stA newSr offset L with
            | mk stR resR =>
              rw [hrel] at hins
              cases resR with
              | error e3 =>
                dsimp only at hins
                simp only [Prod.mk.injEq, Except.error.injEq] at hins
                exfalso
                have := relinkLoop_ne_boundary newSr offset L stA
                rw [hrel] at this
                rw [hins.2] at this
                exact this rfl
              | ok u => simp at hins
  · intro st n rec offset length data L stA e hl hscan hadd
    unfold insert_subrange
    rw [hl]
    dsimp only
    rw [hscan]
    dsimp only
    rw [hadd]

/-- Witness for the hypotheses of
`c1_amended_boundary_atomic_bounds_not`: on a root `[0,10)` with child
`[2,4)`, `insert_subrange(3, 4)` fails with the boundary error leaving
the state intact, while `insert_subrange(0, 11)` propagates the bounds
error of the inner `add_subrange` with the child already removed. -/
theorem c1_amended_witness :
  insert_subrange exC1 0 3 4 none = (exC1, .error .boundary) ∧
  insert_subrange exC1 0 0 11 none = (updateSubs exC1 0 [], .error .bounds) := by
  constructor
  · have h := c1_amended_boundary_atomic_bounds_not.1 exC1 0 3 4 none
      (insert_subrange exC1 0 3 4 none).1 .boundary rfl rfl
    conv_rhs => rw [← h]
    rfl
  · exact c1_amended_boundary_atomic_bounds_not.2 exC1 0 ⟨0, 10, none, none, [1]⟩
      0 11 none [1] (updateSubs exC1 0 []) .bounds rfl rfl rfl

/-! Preservation of the parent-ownership invariant. -/

theorem mem_of_mem_insertIdx {α : Type} {a c : α} :
    ∀ {l : List α} {idx : Nat}, c ∈ l.insertIdx idx a → c = a ∨ c ∈ l := by
  intro l
  induction l with
  | nil =>
    intro idx h
    cases idx with
    | zero =>
      rw [List.insertIdx_zero] at h
      exact Or.inl (List.mem_singleton.mp h)
    | succ k =>
      cases h
  | cons x xs ih =>
    intro idx h
    cases idx with
    | zero =>
      rw [List.insertIdx_zero] at h
      exact List.mem_cons.mp h
    | succ k =>
      rw [List.insertIdx_succ_cons] at h
      rcases List.mem_cons.mp h with rfl | h2
      · exact Or.inr (List.mem_cons_self _ _)
      · rcases ih h2 with rfl | h3
        · exact Or.inl rfl
        · exact Or.inr (List.mem_cons_of_mem _ h3)

theorem ownerInvB_iff {st : State} : ownerInvB st = true ↔ OwnerInv st := by
  unfold ownerInvB OwnerInv
  rw [List.all_eq_true]
  constructor
  · intro h i r hl c hc
    have hi : i ∈ List.range st.nodes.length := List.mem_range.mpr (lookup_lt hl)
    have h2 := h i hi
    unfold lookup at hl
    rw [hl] at h2
    dsimp only at h2
    rw [List.all_eq_true] at h2
    have h3 := h2 c hc
    cases hcc : st.nodes[c]? with
    | none => rw [hcc] at h3; cases h3
    | some cr =>
      rw [hcc] at h3
      dsimp only at h3
      rw [beq_iff_eq] at h3
      exact ⟨cr, hcc, h3⟩
  · intro h i hi
    rw [List.mem_range] at hi
    cases hl : st.nodes[i]? with
    | none => rfl
    | some r =>
      dsimp only
      rw [List.all_eq_true]
      intro c hc
      obtain ⟨cr, hcr, hp⟩ := h i r hl c hc
      unfold lookup at hcr
      rw [hcr]
      dsimp only
      rw [beq_iff_eq]
      exact hp

theorem ownerInv_add {st : State} {n : NodeId} {o l : Int} {d : Option Data}
    {st2 : State} {m : NodeId} (hinv : OwnerInv st)
    (h : add_subrange st n o l d = (st2, .ok m)) : OwnerInv st2 := by
  obtain ⟨rec, vs, idx, hl, _, _, _, _, _, hm, hst2⟩ := add_subrange_ok_elim h
  subst hst2
  subst hm
  have hnl : n < st.nodes.length := lookup_lt hl
  have hlookP : lookup (⟨st.nodes ++ [⟨o, o + l, d, some n, []⟩]⟩ : State) n = some rec := by
    rw [lookup_append_old st _ hnl]
    exact hl
  have hlookn : lookup (updateSubs ⟨st.nodes ++ [⟨o, o + l, d, some n, []⟩]⟩ n
      (rec.subranges.insertIdx idx st.nodes.length)) n
      = some { rec with subranges := rec.subranges.insertIdx idx st.nodes.length } :=
    lookup_updateSubs_self _ hlookP
  intro i r hlook c hc
  by_cases hin : i = n
  · subst hin
    have hr : r = { rec with subranges := rec.subranges.insertIdx idx st.nodes.length } := by
      rw [hlook] at hlookn
      exact (Option.some.injEq _ _).mp hlookn
    subst hr
    rcases mem_of_mem_insertIdx hc with rfl | hcm
    · refine ⟨⟨o, o + l, d, some i, []⟩, ?_, rfl⟩
      rw [lookup_updateSubs_ne _ (Nat.ne_of_gt hnl)]
      exact lookup_append_new st _
    · obtain ⟨cr, hcr, hcrp⟩ := hinv i rec hl c hcm
      by_cases hcn : c = i
      · subst hcn
        have hcrr : cr = rec := by
          rw [hl] at hcr
          exact ((Option.some.injEq _ _).mp hcr).symm
        subst hcrr
        exact ⟨_, hlookn, hcrp⟩
      · refine ⟨cr, ?_, hcrp⟩
        rw [lookup_updateSubs_ne _ hcn]
        rw [lookup_append_old st _ (lookup_lt hcr)]
        exact hcr
  · have hlook2 : lookup (⟨st.nodes ++ [⟨o, o + l, d, some n, []⟩]⟩ : State) i = some r := by
      rw [← lookup_updateSubs_ne (rec.subranges.insertIdx idx st.nodes.length) hin]
      exact hlook
    by_cases him : i = st.nodes.length
    · subst him
      have hr : r = ⟨o, o + l, d, some n, []⟩ := by
        rw [lookup_append_new st _] at hlook2
        exact ((Option.some.injEq _ _).mp hlook2).symm
      subst hr
      cases hc
    · have hilenP : i < st.nodes.length + 1 := by
        have := lookup_lt hlook2
        simpa using this
      have hilen : i < st.nodes.length :=
        Nat.lt_of_le_of_ne (Nat.lt_succ_iff.mp hilenP) him
      have hlookst : lookup st i = some r := by
        rw [← lookup_append_old st (⟨o, o + l, d, some n, []⟩ : NodeRec) hilen]
        exact hlook2
      obtain ⟨cr, hcr, hcrp⟩ := hinv i r hlookst c hc
      by_cases hcn : c = n
      · subst hcn
        have hcrr : cr = rec := by
          rw [hl] at hcr
          exact ((Option.some.injEq _ _).mp hcr).symm
        subst hcrr
        exact ⟨_, hlookn, hcrp⟩
      · refine ⟨cr, ?_, hcrp⟩
        rw [lookup_updateSubs_ne _ hcn]
        rw [lookup_append_old st _ (lookup_lt hcr)]
        exact hcr

theorem ownerInv_scanLoop {cb : Int → Int → Option Data} {n : NodeId} :
    ∀ (fuel : Nat) (st : State) (i : Nat) (current : Int)
      (trace : List (Int × Int)) (st2 : State) (tr : List (Int × Int)),
      OwnerInv st → scanGapLoop cb st n i fuel current trace = (st2, .ok tr) →
      OwnerInv st2 := by
  intro fuel
  induction fuel with
  | zero =>
    intro st i current trace st2 tr _ h
    simp [scanGapLoop] at h
  | succ f ih =>
    intro st i current trace st2 tr hinv h
    unfold scanGapLoop at h
    cases hn : lookup st n with
    | none => rw [hn] at h; simp at h
    | some rec =>
      rw [hn] at h
      dsimp only at h
      cases hsr : rec.subranges[i]? with
      | some srId =>
        rw [hsr] at h
        dsimp only at h
        cases hsrr : lookup st srId with
        | none => rw [hsrr] at h; simp at h
        | some sr =>
          rw [hsrr] at h
          dsimp only at h
          by_cases hgap : sr.start - current > 0
          · rw [if_pos hgap] at h
            cases hadd : add_subrange st n current (sr.start - current)
                (cb current (current + (sr.start - current))) with
            | mk st1 res1 =>
              rw [hadd] at h
              cases res1 with
              | error e => simp at h
              | ok newId =>
                dsimp only at h
                exact ih st1 (i + 1) sr.stop _ st2 tr (ownerInv_add hinv hadd) h
          · rw [if_neg hgap] at h
            exact ih st (i + 1) sr.stop trace st2 tr hinv h
      | none =>
        rw [hsr] at h
        dsimp only at h
        by_cases hgap : rec.stop - (rec.start + current) > 0
        · rw [if_pos hgap] at h
          cases hadd : add_subrange st n current (rec.stop - (rec.start + current))
              (cb current (current + (rec.stop - (rec.start + current)))) with
          | mk st1 res1 =>
            rw [hadd] at h
            cases res1 with
            | error e => simp at h
            | ok newId =>
              dsimp only at h
              simp only [Prod.mk.injEq] at h
              rw [← h.1]
              exact ownerInv_add hinv hadd
        · rw [if_neg hgap] at h
          simp only [Prod.mk.injEq] at h
          rw [← h.1]
          exact hinv

/-- Main theorem for amended claim C3: every successful `add_subrange`
and every successful `scan_gap` preserves the ownership invariant — for
every node, each child in its `subranges` has its `parent` back-reference
pointing at that node.  (`insert_subrange` breaks it for carried-over
grandchildren, as the counterexample shows.) -/
theorem c3_amended_parent_invariant_preserved :
  (∀ (st : State) (n : NodeId) (o l : Int) (d : Option Data) (st2 : State) (m : NodeId),
     ownerInvB st = true → add_subrange st n o l d = (st2, .ok m) →
     ownerInvB st2 = true) ∧
  (∀ (cb : Int → Int → Option Data) (fuel : Nat) (st : State) (n : NodeId)
     (st2 : State) (tr : List (Int × Int)),
     ownerInvB st = true → scan_gap cb fuel st n = (st2, .ok tr) →
     ownerInvB st2 = true) := by
  constructor
  · intro st n o l d st2 m hb h
    exact ownerInvB_iff.mpr (ownerInv_add (ownerInvB_iff.mp hb) h)
  · intro cb fuel st n st2 tr hb h
    unfold scan_gap at h
    cases hn : lookup st n with
    | none => rw [hn] at h; simp at h
    | some rec =>
      rw [hn] at h
      dsimp only at h
      by_cases hlen : rec.subranges.length > 0
      · rw [if_pos hlen] at h
        exact ownerInvB_iff.mpr
          (ownerInv_scanLoop fuel st 0 0 [] st2 tr (ownerInvB_iff.mp hb) h)
      · rw [if_neg hlen] at h
        simp only [Prod.mk.injEq] at h
        rw [← h.1]
        exact hb

/-- Witness for the hypotheses of
`c3_amended_parent_invariant_preserved`: the invariant survives an
`add_subrange` and a `scan_gap` on the example trees. -/
theorem c3_amended_witness :
  ownerInvB (add_subrange exRoot10 0 1 2 none).1 = true ∧
  ownerInvB (scan_gap (fun _ _ => none) 10 exC7 0).1 = true := by
  constructor
  · exact c3_amended_parent_invariant_preserved.1 exRoot10 0 1 2 none
      (add_subrange exRoot10 0 1 2 none).1 1 (by decide) rfl
  · exact c3_amended_parent_invariant_preserved.2 (fun _ _ => none) 10 exC7 0
      (scan_gap (fun _ _ => none) 10 exC7 0).1 [(0, 5), (10, 20)] (by decide) rfl

/-- Witness for the hypotheses of `c4_amended_constructor_fields`: a root
construction stores its second argument as `stop`, and a child created by
`add_subrange(2, 3)` has `start = 2` and `stop = 2 + 3`. -/
theorem c4_amended_witness :
  lookup (mkByteRange exRoot10 0 4 none none).1 1 = some ⟨0, 4, none, none, []⟩ ∧
  ∃ r, lookup (add_subrange exRoot10 0 2 3 none).1 1 = some r ∧
    r.start = 2 ∧ r.stop = 2 + 3 :=
  ⟨c4_amended_constructor_fields.1 exRoot10 0 4 none none
      (mkByteRange exRoot10 0 4 none none).1 1 rfl,
   c4_amended_constructor_fields.2 exRoot10 0 2 3 none
      (add_subrange exRoot10 0 2 3 none).1 1 rfl⟩

end MachOTool
